import Mathlib

/-! # fstring: a template-string engine (`src/fstring.hpp`)

Shallow embedding of the class `fstring` and a verification of its documented
behaviour.

* A `std::string` is a `List Char`; `std::string::npos` is `none`.
* `std::size_t` values are natural numbers reduced modulo `2 ^ 64` wherever the
  source performs unguarded arithmetic on them; `uint32_t` and `uint8_t`
  values are reduced modulo `2 ^ 32` and `2 ^ 8`.
* `std::string::erase` and `std::string::insert` throw `std::out_of_range` for
  a position beyond the end of the string.  All three phases are `noexcept`,
  so such an exception ends the program (`Outcome.terminated`).
* The `for` loop of `padding()` is a recursion on a fuel counter; `padding`
  supplies `src.length() + 1` units of it.
* `padding_loop` takes the string to have room for every fill.
  `padding_loop_cap` is the same loop on a string of bounded capacity, where
  `src.insert` also throws `std::length_error` (size above `max_size()`) or
  `std::bad_alloc`; the two agree on every run that returns.
-/

namespace fstring

/-! ## Machine integers -/

/-- Number of values of `std::size_t` (64 bits). -/
def SIZE_T : Nat := 18446744073709551616

/-- Number of values of `uint32_t`. -/
def UINT32 : Nat := 4294967296

/-- Number of values of `uint8_t`. -/
def UINT8 : Nat := 256

/-- Largest value of `int`, the result type of `std::stoi`. -/
def INT_MAX : Nat := 2147483647

/-! ## Data model -/

/-- The struct `padd_vec`: begin and end positions of a smart section and its
requested width (the source's field `end` is `end_pos` here, `begin` is
`begin_pos`). -/
structure padd_vec where
  begin_pos : Nat
  end_pos : Nat
  value : Nat
deriving DecidableEq, Repr

/-- How a `noexcept` member function ends. -/
inductive Outcome (α : Type) where
  /-- The function returned. -/
  | done : α → Outcome α
  /-- An exception left a `noexcept` function: `std::terminate`. -/
  | terminated : Outcome α
  /-- The fuel of the embedding ran out. -/
  | fuel : Outcome α
deriving DecidableEq, Repr

/-- A constructor argument: text (`std::string`, `const char *`) or an integer
(rendered by `std::to_string`). -/
inductive Arg where
  | text : List Char → Arg
  | int : Int → Arg
deriving DecidableEq, Repr

/-- The private data members `src`, `lpos`, `poss`, `pad_char`. -/
structure State where
  src : List Char
  lpos : Option Nat
  poss : List padd_vec
  pad_char : Char
deriving DecidableEq, Repr

/-! ## `std::string` primitives -/

/-- Search for `c` in `s`, the head of `s` being at position `k`. -/
def find_char_aux (c : Char) : List Char → Nat → Option Nat
  | [], _ => none
  | x :: xs, k => if x = c then some k else find_char_aux c xs (k + 1)

/-- The call `s.find(c, pos)`: first position `≥ pos` holding `c`. -/
def find_char (s : List Char) (c : Char) (pos : Nat) : Option Nat :=
  find_char_aux c (s.drop pos) pos

/-- Whether `s` begins with `needle`. -/
def starts_with : List Char → List Char → Bool
  | [], _ => true
  | _ :: _, [] => false
  | n :: ns, x :: xs => n == x && starts_with ns xs

/-- Search for `needle` in `s`, the head of `s` being at position `k`. -/
def find_str_aux (needle : List Char) : List Char → Nat → Option Nat
  | [], k => if needle = [] then some k else none
  | x :: xs, k =>
    if starts_with needle (x :: xs) then some k else find_str_aux needle xs (k + 1)

/-- The call `s.find(needle, pos)`: first position `≥ pos` where `needle`
occurs. -/
def find_str (s needle : List Char) (pos : Nat) : Option Nat :=
  if pos > s.length then none else find_str_aux needle (s.drop pos) pos

/-- The call `s.substr(pos, n)` for `pos ≤ s.length()`. -/
def substr (s : List Char) (pos n : Nat) : List Char :=
  (s.drop pos).take n

/-- The call `s.erase(pos, n)`; `none` is `std::out_of_range`. -/
def erase (s : List Char) (pos n : Nat) : Option (List Char) :=
  if pos > s.length then none else some (s.take pos ++ s.drop (pos + n))

/-- The call `s.insert(pos, n, c)`; `none` is `std::out_of_range`. -/
def insert_fill (s : List Char) (pos n : Nat) (c : Char) : Option (List Char) :=
  if pos > s.length then none else some (s.take pos ++ List.replicate n c ++ s.drop pos)

/-- The call `s.insert(pos, val)`; `none` is `std::out_of_range`. -/
def insert_str (s : List Char) (pos : Nat) (val : List Char) : Option (List Char) :=
  if pos > s.length then none else some (s.take pos ++ val ++ s.drop pos)

/-- Value of a decimal digit character. -/
def digit_value (ch : Char) : Nat := ch.toNat - 48

/-- Value of a string of decimal digits. -/
def decimal_value (s : List Char) : Nat :=
  s.foldl (fun acc ch => 10 * acc + digit_value ch) 0

/-- The call `std::stoi(s)` for a string `s` of decimal digits (the only
strings `padding()` passes): `none` is `std::invalid_argument` (no digit) or
`std::out_of_range` (value above `INT_MAX`). -/
def stoi (s : List Char) : Option Nat :=
  if s = [] then none
  else if decimal_value s > INT_MAX then none
  else some (decimal_value s)

/-- The loop `while (pos < src.length() && isdigit(src[pos])) pos++`: the
position after the run of digits that starts at `pos`. -/
def skip_digits (s : List Char) (pos : Nat) : Nat :=
  pos + ((s.drop pos).takeWhile Char.isDigit).length

/-! ## `padding()` -/

/-- The `for` loop of `padding()`, entered at its condition with the loop
variable `pos`.  The result is the pair `(src, poss)`. -/
def padding_loop (pad_char : Char) :
    Nat → List Char → List padd_vec → Nat → Outcome (List Char × List padd_vec)
  | 0, _, _, _ => Outcome.fuel
  | fuel + 1, src, poss, pos =>
    if ¬ pos < src.length then Outcome.done (src, poss) else
    -- find '%'
    match find_char src '%' pos with
    | none => Outcome.done (src, poss)
    | some tmp =>
      -- auto tmp = pos ++
      let pos1 := tmp + 1
      if pos1 ≥ src.length then Outcome.done (src, poss) else
      let smart_padding : Bool := decide (src[pos1]? = some '.')
      let pos_start := if smart_padding then pos1 + 1 else pos1
      let pos2 := skip_digits src pos_start
      -- uint8_t digits = pos - pos_start
      let digits := (pos2 - pos_start) % UINT8
      match stoi (substr src pos_start digits) with
      | none => padding_loop pad_char fuel src poss ((pos2 + 1) % SIZE_T)
      | some padd =>
        if padd = 0 then padding_loop pad_char fuel src poss ((pos2 + 1) % SIZE_T) else
        if smart_padding then
          match find_str src ['.', '%'] pos2 with
          | none => Outcome.done ([], poss)
          | some e =>
            let poss1 := poss ++ [⟨tmp, (e + SIZE_T - 4) % SIZE_T, padd⟩]
            match erase src e 2 with
            | none => Outcome.terminated
            | some src1 =>
              match erase src1 tmp (digits + 2) with
              | none => Outcome.terminated
              | some src2 => padding_loop pad_char fuel src2 poss1 ((pos2 + 1) % SIZE_T)
        else
          match erase src tmp (digits + 1) with
          | none => Outcome.terminated
          | some src1 =>
            match insert_fill src1 tmp padd pad_char with
            | none => Outcome.terminated
            | some src2 =>
              -- pos += padd - (digits + 1), the difference taken in uint32_t
              let pos3 := (pos2 + (padd + UINT32 - (digits + 1)) % UINT32) % SIZE_T
              padding_loop pad_char fuel src2 poss ((pos3 + 1) % SIZE_T)

/-- The member function `padding()`. -/
def padding (st : State) : Outcome State :=
  match padding_loop st.pad_char (st.src.length + 1) st.src st.poss 0 with
  | Outcome.done (src, poss) => Outcome.done { st with src := src, poss := poss }
  | Outcome.terminated => Outcome.terminated
  | Outcome.fuel => Outcome.fuel

/-! ## `padding()` on a string of bounded capacity -/

/-- The call `s.insert(pos, n, c)` on a string of bounded capacity: `cap k`
tells whether the string can take the size `k`, that is `k ≤ max_size()` and
the allocator grants the buffer.  The result `none` is `std::out_of_range`,
`std::length_error` or `std::bad_alloc`. -/
def insert_fill_cap (cap : Nat → Bool) (s : List Char) (pos n : Nat) (c : Char) :
    Option (List Char) :=
  if cap (s.length + n) = true then insert_fill s pos n c else none

/-- The `for` loop of `padding()` as in `padding_loop`, with `src.insert` on a
string of capacity `cap`. -/
def padding_loop_cap (cap : Nat → Bool) (pad_char : Char) :
    Nat → List Char → List padd_vec → Nat → Outcome (List Char × List padd_vec)
  | 0, _, _, _ => Outcome.fuel
  | fuel + 1, src, poss, pos =>
    if ¬ pos < src.length then Outcome.done (src, poss) else
    -- find '%'
    match find_char src '%' pos with
    | none => Outcome.done (src, poss)
    | some tmp =>
      -- auto tmp = pos ++
      let pos1 := tmp + 1
      if pos1 ≥ src.length then Outcome.done (src, poss) else
      let smart_padding : Bool := decide (src[pos1]? = some '.')
      let pos_start := if smart_padding then pos1 + 1 else pos1
      let pos2 := skip_digits src pos_start
      -- uint8_t digits = pos - pos_start
      let digits := (pos2 - pos_start) % UINT8
      match stoi (substr src pos_start digits) with
      | none => padding_loop_cap cap pad_char fuel src poss ((pos2 + 1) % SIZE_T)
      | some padd =>
        if padd = 0 then padding_loop_cap cap pad_char fuel src poss ((pos2 + 1) % SIZE_T) else
        if smart_padding then
          match find_str src ['.', '%'] pos2 with
          | none => Outcome.done ([], poss)
          | some e =>
            let poss1 := poss ++ [⟨tmp, (e + SIZE_T - 4) % SIZE_T, padd⟩]
            match erase src e 2 with
            | none => Outcome.terminated
            | some src1 =>
              match erase src1 tmp (digits + 2) with
              | none => Outcome.terminated
              | some src2 =>
                padding_loop_cap cap pad_char fuel src2 poss1 ((pos2 + 1) % SIZE_T)
        else
          match erase src tmp (digits + 1) with
          | none => Outcome.terminated
          | some src1 =>
            match insert_fill_cap cap src1 tmp padd pad_char with
            | none => Outcome.terminated
            | some src2 =>
              -- pos += padd - (digits + 1), the difference taken in uint32_t
              let pos3 := (pos2 + (padd + UINT32 - (digits + 1)) % UINT32) % SIZE_T
              padding_loop_cap cap pad_char fuel src2 poss ((pos3 + 1) % SIZE_T)

/-- The member function `padding()` on a string of capacity `cap`. -/
def padding_cap (cap : Nat → Bool) (st : State) : Outcome State :=
  match padding_loop_cap cap st.pad_char (st.src.length + 1) st.src st.poss 0 with
  | Outcome.done (src, poss) => Outcome.done { st with src := src, poss := poss }
  | Outcome.terminated => Outcome.terminated
  | Outcome.fuel => Outcome.fuel

/-! ## `variables()` -/

/-- The overloads of `tostr`. -/
def tostr : Arg → List Char
  | Arg.text s => s
  | Arg.int n => (toString n).toList

/-- The adjustment `x += val_len; if (x > 2) x -= 2`. -/
def shift_index (x val_len : Nat) : Nat :=
  let y := (x + val_len) % SIZE_T
  if y > 2 then y - 2 else y

/-- The loop over `poss` in `variables()`; `first` tells whether the record at
the head is `poss.begin()`. -/
def shift_records (lpos val_len : Nat) : Bool → List padd_vec → List padd_vec
  | _, [] => []
  | first, r :: rs =>
    (if r.end_pos ≤ lpos then r
     else
       { begin_pos := if first then r.begin_pos else shift_index r.begin_pos val_len,
         end_pos := shift_index r.end_pos val_len,
         value := r.value }) :: shift_records lpos val_len false rs

/-- The member function `variables(arg)` (the word `variables` is reserved in
Lean). -/
def variables_arg (st : State) (arg : Arg) : Outcome State :=
  match st.lpos with
  | none => Outcome.done st
  | some l =>
    match find_str st.src ['{', '}'] l with
    | none => Outcome.done { st with lpos := none }
    | some p =>
      let val := tostr arg
      match erase st.src p 2 with
      | none => Outcome.terminated
      | some src1 =>
        match insert_str src1 p val with
        | none => Outcome.terminated
        | some src2 =>
          Outcome.done
            { st with src := src2, lpos := some p,
                      poss := shift_records p val.length true st.poss }

/-- The fold `( variables(args) , ...)` over the argument pack. -/
def variables_all : State → List Arg → Outcome State
  | st, [] => Outcome.done st
  | st, a :: as =>
    match variables_arg st a with
    | Outcome.done st1 => variables_all st1 as
    | Outcome.terminated => Outcome.terminated
    | Outcome.fuel => Outcome.fuel

/-! ## `apply()` -/

/-- The inner loop `t->begin += padd; t->end += padd`. -/
def shift_by (padd : Nat) (r : padd_vec) : padd_vec :=
  { begin_pos := (r.begin_pos + padd) % SIZE_T,
    end_pos := (r.end_pos + padd) % SIZE_T,
    value := r.value }

/-- The loop of `apply()` with the iterator `i` as an index into `poss`; the
first argument counts the records from `i` on. -/
def apply_loop (pad_char : Char) :
    Nat → List Char → List padd_vec → Nat → Outcome (List Char × List padd_vec)
  | 0, src, poss, _ => Outcome.done (src, poss)
  | n + 1, src, poss, i =>
    match poss[i]? with
    | none => Outcome.done (src, poss)
    | some r =>
      -- std::size_t length = i->end - i->begin
      let length := (r.end_pos + SIZE_T - r.begin_pos) % SIZE_T
      if r.value > length then
        let padd := r.value - length
        match insert_fill src r.end_pos padd pad_char with
        | none => Outcome.terminated
        | some src1 =>
          -- for (auto t = i; t < poss.end(); t++)
          apply_loop pad_char n src1 (poss.take i ++ (poss.drop i).map (shift_by padd)) (i + 1)
      else apply_loop pad_char n src poss (i + 1)

/-- The member function `apply()`. -/
def apply (st : State) : Outcome State :=
  match apply_loop st.pad_char st.poss.length st.src st.poss 0 with
  | Outcome.done (src, poss) => Outcome.done { st with src := src, poss := poss }
  | Outcome.terminated => Outcome.terminated
  | Outcome.fuel => Outcome.fuel

/-! ## Construction -/

/-- The state before the constructor body runs. -/
def init (pad_char : Char) (src : List Char) : State :=
  { src := src, lpos := some 0, poss := [], pad_char := pad_char }

/-- The constructor `fstring(pad_char, src, args...)`: the final state. -/
def construct (pad_char : Char) (src : List Char) (args : List Arg) : Outcome State :=
  match padding (init pad_char src) with
  | Outcome.done st1 =>
    match variables_all st1 args with
    | Outcome.done st2 => apply st2
    | Outcome.terminated => Outcome.terminated
    | Outcome.fuel => Outcome.fuel
  | Outcome.terminated => Outcome.terminated
  | Outcome.fuel => Outcome.fuel

/-- The constructor followed by `get()`: the finished string. -/
def get (pad_char : Char) (src : List Char) (args : List Arg) : Outcome (List Char) :=
  match construct pad_char src args with
  | Outcome.done st => Outcome.done st.src
  | Outcome.terminated => Outcome.terminated
  | Outcome.fuel => Outcome.fuel

/-! ## Vocabulary of the specification -/

/-- The decimal numeral of `n` without leading zeros, as a template author
writes a width and as `std::to_string` renders a number. -/
def decimal (n : Nat) : List Char := Nat.toDigits 10 n

/-- The string `t` is short enough to be a `std::string` whose positions, and
the positions `padding()` computes from them, stay below `2 ^ 64`. -/
def representable (t : List Char) : Prop := t.length < 2 ^ 63

instance (t : List Char) : Decidable (representable t) := by
  unfold representable
  infer_instance

/-- The template `s0 {} s1 {} ... {} sk`, given as `s0` and `[s1, ..., sk]`. -/
def template (s0 : List Char) : List (List Char) → List Char
  | [] => s0
  | s1 :: ss => s0 ++ '{' :: '}' :: template s1 ss

/-- The text `s0 ++ w1 ++ s1 ++ ... ++ wk ++ sk`, where `wi` is the text of
the `i`-th argument while arguments last and `{}` afterwards; arguments beyond
the `k`-th are not looked at. -/
def substituted (s0 : List Char) : List (List Char) → List Arg → List Char
  | [], _ => s0
  | s1 :: ss, [] => s0 ++ '{' :: '}' :: substituted s1 ss []
  | s1 :: ss, v :: vs => s0 ++ tostr v ++ substituted s1 ss vs

/-- Whether `b` starts with a decimal digit. -/
def starts_with_digit : List Char → Bool
  | [] => false
  | ch :: _ => ch.isDigit

/-- Every `%` of `t` is followed, after an optional `.`, by a maximal run of
decimal digits that is empty or consists of zeros only. -/
def ignored_directives (t : List Char) : Prop :=
  ∀ p, p < t.length → t[p]? = some '%' →
    ∀ ch ∈ (t.drop (if t[p + 1]? = some '.' then p + 2 else p + 1)).takeWhile Char.isDigit,
      ch = '0'

instance (t : List Char) : Decidable (ignored_directives t) := by
  unfold ignored_directives
  infer_instance

/-- Position of the first candidate digit of the directive whose `%` is at
`tmp`: after the `.` of a smart directive, else right after the `%`. -/
def digits_start (src : List Char) (tmp : Nat) : Nat :=
  if src[tmp + 1]? = some '.' then tmp + 2 else tmp + 1

/-- The buffer `rem`, whose first character has position `k`, in which the
content of each span of `rs` is followed by the pad characters it lacks:
`max(0, targetWidth - (end - begin))` copies of `c` right behind position
`end`; every character of `rem` is kept, in order. -/
def padded (c : Char) : List Char → Nat → List padd_vec → List Char
  | rem, _, [] => rem
  | rem, k, r :: rs =>
    rem.take (r.end_pos - k) ++ List.replicate (r.value - (r.end_pos - r.begin_pos)) c
      ++ padded c (rem.drop (r.end_pos - k)) r.end_pos rs

/-- The spans of `rs` are in range, ordered and disjoint:
`k ≤ b1 ≤ e1 ≤ b2 ≤ e2 ≤ ... ≤ en ≤ len`. -/
def valid_records : Nat → List padd_vec → Nat → Prop
  | k, [], len => k ≤ len
  | k, r :: rs, len =>
    k ≤ r.begin_pos ∧ r.begin_pos ≤ r.end_pos ∧ valid_records r.end_pos rs len

/-- Sum of the requested widths of `rs`, a bound on what `apply()` inserts. -/
def total_width (rs : List padd_vec) : Nat := (rs.map padd_vec.value).sum

/-- The state between the second and the third phase of the constructor:
after `padding()` and the calls of `variables()`, before `apply()`. -/
def substituted_state (pad_char : Char) (src : List Char) (args : List Arg) : Outcome State :=
  match padding (init pad_char src) with
  | Outcome.done st1 => variables_all st1 args
  | Outcome.terminated => Outcome.terminated
  | Outcome.fuel => Outcome.fuel

/-! ## Facts about the string primitives -/

theorem find_char_aux_none (c : Char) (s : List Char) (k : Nat) (h : c ∉ s) :
    find_char_aux c s k = none := by
  induction s generalizing k with
  | nil => rfl
  | cons x xs ih =>
    have hx : x ≠ c := fun e => h (by simp [e])
    have hxs : c ∉ xs := fun e => h (by simp [e])
    simp [find_char_aux, hx, ih _ hxs]

theorem find_char_aux_append (c : Char) (a b : List Char) (k : Nat) (h : c ∉ a) :
    find_char_aux c (a ++ c :: b) k = some (k + a.length) := by
  induction a generalizing k with
  | nil => simp [find_char_aux]
  | cons x xs ih =>
    have hx : x ≠ c := fun e => h (by simp [e])
    have hxs : c ∉ xs := fun e => h (by simp [e])
    show find_char_aux c (x :: (xs ++ c :: b)) k = _
    simp only [find_char_aux, hx, if_false, List.length_cons]
    rw [ih _ hxs]
    exact congrArg some (by omega)

theorem find_char_none (s : List Char) (c : Char) (pos : Nat) (h : c ∉ s.drop pos) :
    find_char s c pos = none :=
  find_char_aux_none c _ pos h

theorem find_char_aux_some (c : Char) (s : List Char) (k p : Nat)
    (h : find_char_aux c s k = some p) :
    k ≤ p ∧ p < k + s.length ∧ s[p - k]? = some c := by
  induction s generalizing k with
  | nil => simp [find_char_aux] at h
  | cons x xs ih =>
    simp only [find_char_aux] at h
    by_cases hx : x = c
    · simp only [hx, if_true, Option.some.injEq] at h
      subst h
      simp [hx]
    · simp only [hx, if_false] at h
      obtain ⟨h1, h2, h3⟩ := ih _ h
      refine ⟨by omega, by simp only [List.length_cons]; omega, ?_⟩
      have e : p - k = (p - (k + 1)) + 1 := by omega
      rw [e, List.getElem?_cons_succ]
      exact h3

theorem find_char_some (s : List Char) (c : Char) (pos p : Nat)
    (h : find_char s c pos = some p) :
    pos ≤ p ∧ p < s.length ∧ s[p]? = some c := by
  obtain ⟨h1, h2, h3⟩ := find_char_aux_some c _ pos p h
  rw [List.length_drop] at h2
  rw [List.getElem?_drop] at h3
  have e : pos + (p - pos) = p := by omega
  rw [e] at h3
  exact ⟨h1, by omega, h3⟩

theorem starts_with_iff (n s : List Char) : starts_with n s = true ↔ n <+: s := by
  induction n generalizing s with
  | nil => simp [starts_with]
  | cons a n ih =>
    cases s with
    | nil => simp [starts_with]
    | cons b s => simp [starts_with, ih, List.cons_prefix_cons]

theorem find_str_aux_none (n s : List Char) (k : Nat) (hn : n ≠ [])
    (h : ¬ n <:+: s) : find_str_aux n s k = none := by
  induction s generalizing k with
  | nil => simp [find_str_aux, hn]
  | cons x xs ih =>
    have h1 : ¬ starts_with n (x :: xs) = true := fun e =>
      h ((starts_with_iff _ _).1 e).isInfix
    have h2 : ¬ n <:+: xs := fun e => h (e.trans (List.suffix_cons x xs).isInfix)
    simp [find_str_aux, h1, ih _ h2]

theorem find_str_none (s n : List Char) (pos : Nat) (hn : n ≠ [])
    (h : ¬ n <:+: s.drop pos) : find_str s n pos = none := by
  unfold find_str
  split
  · rfl
  · exact find_str_aux_none n _ pos hn h

theorem find_str_aux_pair (p q : Char) (hpq : p ≠ q) (y rest : List Char) (k : Nat)
    (h : ¬ [p, q] <:+: y) :
    find_str_aux [p, q] (y ++ p :: q :: rest) k = some (k + y.length) := by
  induction y generalizing k with
  | nil => simp [find_str_aux, starts_with]
  | cons a y ih =>
    have h2 : ¬ [p, q] <:+: y := fun e => h (e.trans (List.suffix_cons a y).isInfix)
    have h1 : starts_with [p, q] (a :: (y ++ p :: q :: rest)) = false := by
      cases y with
      | nil =>
        have : (q == p) = false := by simpa using (Ne.symm hpq)
        simp [starts_with, this]
      | cons b y =>
        by_cases hab : p = a ∧ q = b
        · exfalso
          apply h
          rw [hab.1, hab.2]
          exact (List.prefix_append [a, b] y).isInfix
        · simp only [starts_with, List.cons_append, Bool.and_true]
          simpa using hab
    show find_str_aux [p, q] (a :: (y ++ p :: q :: rest)) k = _
    simp only [find_str_aux, h1, List.length_cons]
    rw [ih _ h2]
    exact congrArg some (by omega)

/-! ## Facts about decimal numerals -/

theorem digitChar_spec (k : Nat) (h : k < 10) :
    (Nat.digitChar k).isDigit = true ∧ digit_value (Nat.digitChar k) = k := by
  interval_cases k <;> decide

theorem decimal_value_append (l : List Char) (ch : Char) :
    decimal_value (l ++ [ch]) = 10 * decimal_value l + digit_value ch := by
  simp [decimal_value, List.foldl_append]

theorem toDigitsCore_spec (f : Nat) : ∀ (n : Nat) (ds : List Char), n < f →
    ∃ L, Nat.toDigitsCore 10 f n ds = L ++ ds ∧ L ≠ [] ∧
      (∀ ch ∈ L, ch.isDigit = true) ∧ decimal_value L = n := by
  induction f with
  | zero => intro n ds h; omega
  | succ f ih =>
    intro n ds h
    obtain ⟨hd, hv⟩ := digitChar_spec (n % 10) (Nat.mod_lt _ (by decide))
    simp only [Nat.toDigitsCore]
    by_cases h0 : n / 10 = 0
    · refine ⟨[Nat.digitChar (n % 10)], by simp [h0], by simp, by simpa using hd, ?_⟩
      have e := decimal_value_append [] (Nat.digitChar (n % 10))
      simp only [List.nil_append] at e
      rw [e, hv]
      simp only [decimal_value, List.foldl_nil]
      omega
    · obtain ⟨L, hL, _, hdig, hval⟩ :=
        ih (n / 10) (Nat.digitChar (n % 10) :: ds) (by omega)
      refine ⟨L ++ [Nat.digitChar (n % 10)], by simp [h0, hL], by simp, ?_, ?_⟩
      · intro ch hch
        rcases List.mem_append.1 hch with hm | hm
        · exact hdig ch hm
        · rw [List.mem_singleton.1 hm]; exact hd
      · rw [decimal_value_append, hval, hv]
        omega

theorem decimal_ne_nil (n : Nat) : decimal n ≠ [] := by
  obtain ⟨L, hL, hne, _, _⟩ := toDigitsCore_spec (n + 1) n [] (by omega)
  unfold decimal Nat.toDigits
  rw [hL, List.append_nil]
  exact hne

theorem decimal_isDigit (n : Nat) : ∀ ch ∈ decimal n, ch.isDigit = true := by
  obtain ⟨L, hL, _, hdig, _⟩ := toDigitsCore_spec (n + 1) n [] (by omega)
  unfold decimal Nat.toDigits
  rw [hL, List.append_nil]
  exact hdig

theorem decimal_value_decimal (n : Nat) : decimal_value (decimal n) = n := by
  obtain ⟨L, hL, _, _, hval⟩ := toDigitsCore_spec (n + 1) n [] (by omega)
  unfold decimal Nat.toDigits
  rw [hL, List.append_nil]
  exact hval

theorem decimal_length_le (n : Nat) (h : n < 2 ^ 31) : (decimal n).length ≤ 10 :=
  Nat.toDigitsCore_length 10 (by decide) (n + 1) n 10 (by omega) (by decide)

theorem stoi_decimal (n : Nat) (h : n < 2 ^ 31) : stoi (decimal n) = some n := by
  have h1 : ¬ n > INT_MAX := by unfold INT_MAX; omega
  simp [stoi, decimal_ne_nil, decimal_value_decimal, h1]

/-! ## Facts about the three phases -/

theorem padding_loop_no_percent (c : Char) (fuel : Nat) (src : List Char)
    (poss : List padd_vec) (pos : Nat) (h : '%' ∉ src.drop pos) :
    padding_loop c (fuel + 1) src poss pos = Outcome.done (src, poss) := by
  simp only [padding_loop, find_char_none src '%' pos h]
  split <;> rfl

theorem padding_no_percent (c : Char) (t : List Char) (h : '%' ∉ t) :
    padding (init c t) = Outcome.done (init c t) := by
  have h1 : '%' ∉ t.drop 0 := by simpa using h
  simp only [padding, init, padding_loop_no_percent c t.length t [] 0 h1]

theorem variables_all_lpos_none (st : State) (args : List Arg) (h : st.lpos = none) :
    variables_all st args = Outcome.done st := by
  induction args with
  | nil => rfl
  | cons a as ih => simp only [variables_all, variables_arg, h, ih]

theorem variables_all_exhausted (st : State) (l : Nat) (args : List Arg)
    (h : st.lpos = some l) (hf : find_str st.src ['{', '}'] l = none) :
    ∃ st1, variables_all st args = Outcome.done st1 ∧ st1.src = st.src ∧
      st1.poss = st.poss ∧ st1.pad_char = st.pad_char := by
  cases args with
  | nil => exact ⟨st, rfl, rfl, rfl, rfl⟩
  | cons a as =>
    refine ⟨{ st with lpos := none }, ?_, rfl, rfl, rfl⟩
    simp only [variables_all, variables_arg, h, hf]
    exact variables_all_lpos_none _ as rfl

theorem apply_no_record (st : State) (h : st.poss = []) : apply st = Outcome.done st := by
  cases st with
  | mk src lpos poss pad_char =>
    simp only at h
    subst h
    rfl

/-- When the scanner leaves the buffer `t` without a placeholder and without a
record, the constructed string is `t`. -/
theorem get_of_padding (c : Char) (t u : List Char) (args : List Arg)
    (hp : padding (init c t) = Outcome.done (init c u))
    (hb : ¬ ['{', '}'] <:+: u) : get c t args = Outcome.done u := by
  have hf : find_str (init c u).src ['{', '}'] 0 = none :=
    find_str_none u _ 0 (by simp) (by simpa [init] using hb)
  obtain ⟨st1, h1, h2, h3, _⟩ := variables_all_exhausted (init c u) 0 args rfl hf
  simp only [get, construct, hp, h1, apply_no_record st1 (by rw [h3]; rfl), h2]
  rfl

/-! ## Claims -/

/-- C9: a template without a `%` character and without a `{}` substring is
returned unchanged, for every pad character and every argument list. -/
theorem C9_passthrough (c : Char) (t : List Char) (args : List Arg)
    (hp : '%' ∉ t) (hb : ¬ ['{', '}'] <:+: t) :
    get c t args = Outcome.done t :=
  get_of_padding c t t args (padding_no_percent c t hp) hb

/-- Witness of C9 on the template `Hello, world` with two arguments. -/
theorem C9_passthrough_witness :
    get '*' "Hello, world".toList [Arg.int 7, Arg.text "x".toList]
      = Outcome.done "Hello, world".toList :=
  C9_passthrough '*' "Hello, world".toList [Arg.int 7, Arg.text "x".toList]
    (by decide) (by decide)

/-! ## Ignored directives -/

theorem decimal_value_zeros (l : List Char) (h : ∀ ch ∈ l, ch = '0') :
    decimal_value l = 0 := by
  induction l using List.reverseRecOn with
  | nil => rfl
  | append_singleton l ch ih =>
    rw [decimal_value_append, ih (fun x hx => h x (by simp [hx])), h ch (by simp)]
    rfl

theorem stoi_zeros (l : List Char) (h : ∀ ch ∈ l, ch = '0') :
    stoi l = none ∨ stoi l = some 0 := by
  by_cases hl : l = []
  · left; simp [stoi, hl]
  · right
    simp [stoi, hl, decimal_value_zeros l h, INT_MAX]

theorem mem_takeWhile_of_mem_take (p : Char → Bool) (l : List Char) (k : Nat) (ch : Char)
    (hk : k ≤ (l.takeWhile p).length) (h : ch ∈ l.take k) : ch ∈ l.takeWhile p := by
  induction l generalizing k with
  | nil => simp at h
  | cons x xs ih =>
    cases k with
    | zero => simp at h
    | succ k =>
      by_cases hx : p x = true
      · simp only [List.takeWhile_cons, hx, if_true, List.length_cons] at hk ⊢
        simp only [List.take_succ_cons, List.mem_cons] at h ⊢
        rcases h with h | h
        · exact Or.inl h
        · exact Or.inr (ih k (by omega) h)
      · simp [List.takeWhile_cons, hx] at hk

/-- One turn of the loop of `padding()` at a directive whose digit token does
not parse or has the value zero: the buffer is kept and the scan goes on
behind the digits. -/
theorem padding_loop_skip (c : Char) (fuel : Nat) (src : List Char) (poss : List padd_vec)
    (pos tmp : Nat) (hpos : pos < src.length) (hfc : find_char src '%' pos = some tmp)
    (hl : tmp + 1 < src.length)
    (hs : stoi (substr src (digits_start src tmp)
            ((skip_digits src (digits_start src tmp) - digits_start src tmp) % UINT8)) = none ∨
          stoi (substr src (digits_start src tmp)
            ((skip_digits src (digits_start src tmp) - digits_start src tmp) % UINT8)) = some 0) :
    padding_loop c (fuel + 1) src poss pos =
      padding_loop c fuel src poss ((skip_digits src (digits_start src tmp) + 1) % SIZE_T) := by
  have hl2 : ¬ tmp + 1 ≥ src.length := by omega
  have hds : (if decide (src[tmp + 1]? = some '.') = true then tmp + 1 + 1 else tmp + 1)
      = digits_start src tmp := by
    unfold digits_start
    by_cases h : src[tmp + 1]? = some '.' <;> simp [h]
  rw [padding_loop]
  simp only [hpos, not_true, if_false, hfc, hl2, hds]
  rcases hs with hs | hs <;> simp only [hs, if_true]

theorem skip_digits_le (s : List Char) (pos : Nat) (h : pos ≤ s.length) :
    skip_digits s pos ≤ s.length := by
  unfold skip_digits
  have := (List.takeWhile_sublist Char.isDigit :
    List.Sublist ((s.drop pos).takeWhile Char.isDigit) (s.drop pos)).length_le
  rw [List.length_drop] at this
  omega

theorem le_skip_digits (s : List Char) (pos : Nat) : pos ≤ skip_digits s pos := by
  unfold skip_digits
  omega

theorem padding_loop_ignored (c : Char) (t : List Char) (ht : representable t)
    (hi : ignored_directives t) :
    ∀ (fuel pos : Nat) (poss : List padd_vec), t.length + 1 ≤ fuel + pos → 0 < fuel →
      padding_loop c fuel t poss pos = Outcome.done (t, poss) := by
  intro fuel
  induction fuel with
  | zero => intro pos poss _ h0; omega
  | succ fuel ih =>
    intro pos poss h _
    by_cases hpos : pos < t.length
    · cases hfc : find_char t '%' pos with
      | none =>
        rw [padding_loop]
        simp only [hpos, not_true, if_false, hfc]
      | some tmp =>
        obtain ⟨h1, h2, h3⟩ := find_char_some t '%' pos tmp hfc
        by_cases hl : tmp + 1 < t.length
        · have hz := hi tmp h2 h3
          have hle : digits_start t tmp ≤ t.length := by
            unfold digits_start; split <;> omega
          have hge : tmp + 1 ≤ digits_start t tmp := by
            unfold digits_start; split <;> omega
          have h4 := skip_digits_le t _ hle
          have h5 := le_skip_digits t (digits_start t tmp)
          rw [padding_loop_skip c fuel t poss pos tmp hpos hfc hl]
          · unfold representable at ht
            have e : (skip_digits t (digits_start t tmp) + 1) % SIZE_T
                = skip_digits t (digits_start t tmp) + 1 :=
              Nat.mod_eq_of_lt (by unfold SIZE_T; omega)
            rw [e]
            exact ih _ poss (by omega) (by omega)
          · apply stoi_zeros
            intro ch hch
            apply hz
            unfold substr at hch
            refine mem_takeWhile_of_mem_take Char.isDigit _ _ ch ?_ hch
            unfold skip_digits digits_start UINT8
            have := Nat.mod_le ((if t[tmp + 1]? = some '.' then tmp + 2 else tmp + 1)
              + (List.takeWhile Char.isDigit (List.drop
                  (if t[tmp + 1]? = some '.' then tmp + 2 else tmp + 1) t)).length
              - (if t[tmp + 1]? = some '.' then tmp + 2 else tmp + 1)) 256
            omega
        · rw [padding_loop]
          have hl2 : tmp + 1 ≥ t.length := by omega
          simp only [hpos, not_true, if_false, hfc, hl2, if_true]
    · rw [padding_loop]
      simp only [hpos, not_false_eq_true, if_true]

theorem padding_ignored (c : Char) (t : List Char) (ht : representable t)
    (hi : ignored_directives t) : padding (init c t) = Outcome.done (init c t) := by
  simp only [padding, init, padding_loop_ignored c t ht hi (t.length + 1) 0 [] (by omega)
    (by omega)]

/-- C10: in a template without `{}` whose every `%` is followed (after an
optional `.`) by a maximal digit run that is empty or all zeros, no directive
is resolved: `padding()` leaves the buffer as it is and creates no padding
record, and the constructed string is the template, for every pad character
and argument list. -/
theorem C10_ignored_directives_literal (c : Char) (t : List Char) (args : List Arg)
    (ht : representable t) (hb : ¬ ['{', '}'] <:+: t) (hi : ignored_directives t) :
    padding (init c t) = Outcome.done (init c t) ∧ (init c t).poss = [] ∧
      get c t args = Outcome.done t :=
  ⟨padding_ignored c t ht hi, rfl, get_of_padding c t t args (padding_ignored c t ht hi) hb⟩

/-- Witness of C10 on a template with all five kinds of ignored directive. -/
theorem C10_ignored_directives_literal_witness :
    representable "a%0b%.0c%d%.e%".toList ∧ ¬ ['{', '}'] <:+: "a%0b%.0c%d%.e%".toList ∧
      ignored_directives "a%0b%.0c%d%.e%".toList ∧
      get '*' "a%0b%.0c%d%.e%".toList [Arg.int 1] = Outcome.done "a%0b%.0c%d%.e%".toList :=
  ⟨by decide, by decide, by decide,
    (C10_ignored_directives_literal '*' "a%0b%.0c%d%.e%".toList [Arg.int 1]
      (by decide) (by decide) (by decide)).2.2⟩

/-! ## A normal directive -/

theorem takeWhile_digits_append (num b : List Char) (hnum : ∀ ch ∈ num, ch.isDigit = true)
    (hb : starts_with_digit b = false) : (num ++ b).takeWhile Char.isDigit = num := by
  induction num with
  | nil =>
    cases b with
    | nil => rfl
    | cons x xs =>
      have hx : x.isDigit = false := hb
      simp [List.takeWhile_cons, hx]
  | cons x xs ih =>
    have hx : x.isDigit = true := hnum x (by simp)
    simp only [List.cons_append, List.takeWhile_cons, hx, if_true]
    rw [ih (fun ch hch => hnum ch (by simp [hch]))]

theorem decimal_head (n : Nat) : ∃ ch rest, decimal n = ch :: rest ∧ ch.isDigit = true := by
  cases h : decimal n with
  | nil => exact absurd h (decimal_ne_nil n)
  | cons ch rest => exact ⟨ch, rest, rfl, decimal_isDigit n ch (by simp [h])⟩

theorem drop_directive (a x : List Char) (k : Nat) :
    (a ++ '%' :: x).drop (a.length + 1 + k) = x.drop k := by
  rw [Nat.add_assoc, List.drop_append]
  simp [Nat.add_comm 1 k]

/-- One turn of the loop of `padding()` at a normal directive `%N`: the
directive gives way to `N` pad characters and the scan goes on at the position
the source computes. -/
theorem padding_loop_normal (c : Char) (fuel : Nat) (a b : List Char) (poss : List padd_vec)
    (pos N : Nat) (hN0 : 0 < N) (hN : N < 2 ^ 31) (hpos : pos ≤ a.length)
    (ha : '%' ∉ a.drop pos) (hb : starts_with_digit b = false) :
    padding_loop c (fuel + 1) (a ++ '%' :: (decimal N ++ b)) poss pos =
      padding_loop c fuel (a ++ List.replicate N c ++ b) poss
        (((a.length + 1 + (decimal N).length
            + (N + UINT32 - ((decimal N).length + 1)) % UINT32) % SIZE_T + 1) % SIZE_T) := by
  have hd := decimal_length_le N hN
  obtain ⟨ch, rest, hch, hdig⟩ := decimal_head N
  have hlen : (a ++ '%' :: (decimal N ++ b)).length
      = a.length + 1 + (decimal N).length + b.length := by
    simp only [List.length_append, List.length_cons]; omega
  have hpos1 : pos < (a ++ '%' :: (decimal N ++ b)).length := by omega
  have hfc : find_char (a ++ '%' :: (decimal N ++ b)) '%' pos = some a.length := by
    unfold find_char
    rw [List.drop_append_of_le_length hpos, find_char_aux_append '%' _ _ pos ha,
      List.length_drop]
    exact congrArg some (by omega)
  have hd0 : 0 < (decimal N).length := by rw [hch]; simp
  have hl2 : ¬ a.length + 1 ≥ (a ++ '%' :: (decimal N ++ b)).length := by omega
  have hdot : ¬ (a ++ '%' :: (decimal N ++ b))[a.length + 1]? = some '.' := by
    have e := drop_directive a (decimal N ++ b) 0
    have e2 : (a ++ '%' :: (decimal N ++ b))[a.length + 1]? = some ch := by
      rw [← List.head?_drop, e, List.drop_zero, hch]
      rfl
    rw [e2]
    intro h
    rw [Option.some.inj h] at hdig
    exact absurd hdig (by decide)
  have hsk : skip_digits (a ++ '%' :: (decimal N ++ b)) (a.length + 1)
      = a.length + 1 + (decimal N).length := by
    unfold skip_digits
    have e := drop_directive a (decimal N ++ b) 0
    rw [Nat.add_zero, List.drop_zero] at e
    rw [e, takeWhile_digits_append _ _ (decimal_isDigit N) hb]
  have hdg : (a.length + 1 + (decimal N).length - (a.length + 1)) % UINT8
      = (decimal N).length := by
    unfold UINT8; omega
  have hsub : substr (a ++ '%' :: (decimal N ++ b)) (a.length + 1) (decimal N).length
      = decimal N := by
    unfold substr
    have e := drop_directive a (decimal N ++ b) 0
    rw [Nat.add_zero, List.drop_zero] at e
    rw [e, List.take_left]
  have her : erase (a ++ '%' :: (decimal N ++ b)) a.length ((decimal N).length + 1)
      = some (a ++ b) := by
    unfold erase
    have h1 : ¬ a.length > (a ++ '%' :: (decimal N ++ b)).length := by omega
    have e := drop_directive a (decimal N ++ b) (decimal N).length
    rw [List.drop_left] at e
    have e3 : a.length + ((decimal N).length + 1) = a.length + 1 + (decimal N).length := by
      omega
    rw [if_neg h1, List.take_left, e3, e]
  have hin : insert_fill (a ++ b) a.length N c = some (a ++ List.replicate N c ++ b) := by
    unfold insert_fill
    have h1 : ¬ a.length > (a ++ b).length := by
      simp only [List.length_append]; omega
    rw [if_neg h1, List.take_left, List.drop_left]
  have hN1 : ¬ N = 0 := by omega
  rw [padding_loop]
  simp only [hpos1, not_true, if_false, hfc, hl2, hdot, decide_False, hsk, hdg, hsub,
    stoi_decimal N hN, hN1, her, hin, Bool.false_eq_true]

theorem get_of_padding_nil (c : Char) (t u : List Char) (poss : List padd_vec)
    (hp : padding (init c t) = Outcome.done { init c u with poss := poss })
    (hposs : poss = []) : get c t [] = Outcome.done u := by
  subst hposs
  simp only [get, construct, hp, variables_all]
  rfl

/-- C4: a single normal directive `%N` between `%`-free texts `a` and `b` (`b`
not starting with a digit) is replaced by exactly `N` copies of the pad
character, whatever the pad character is (`%` and digits included). -/
theorem C4_normal_directive (c : Char) (a b : List Char) (N : Nat)
    (hN0 : 0 < N) (hN : N < 2 ^ 31) (ha : '%' ∉ a) (hb : '%' ∉ b)
    (hbd : starts_with_digit b = false)
    (ht : representable (a ++ '%' :: (decimal N ++ b))) :
    get c (a ++ '%' :: (decimal N ++ b)) [] = Outcome.done (a ++ List.replicate N c ++ b) := by
  have hd := decimal_length_le N hN
  obtain ⟨ch, rest, hch, _⟩ := decimal_head N
  have hd0 : 0 < (decimal N).length := by rw [hch]; simp
  have hlen : (a ++ '%' :: (decimal N ++ b)).length
      = a.length + 1 + (decimal N).length + b.length := by
    simp only [List.length_append, List.length_cons]; omega
  unfold representable at ht
  rw [hlen] at ht
  apply get_of_padding_nil c _ _ [] _ rfl
  have hfuel : (a ++ '%' :: (decimal N ++ b)).length + 1
      = ((a.length + (decimal N).length + b.length) + 1) + 1 := by omega
  simp only [padding, init]
  rw [hfuel, padding_loop_normal c _ a b [] 0 N hN0 hN (Nat.zero_le _) (by simpa using ha) hbd,
    padding_loop_no_percent]
  intro hmem
  have hge : a.length + N ≤ ((a.length + 1 + (decimal N).length
      + (N + UINT32 - ((decimal N).length + 1)) % UINT32) % SIZE_T + 1) % SIZE_T := by
    unfold UINT32 SIZE_T
    omega
  obtain ⟨k, hk⟩ := Nat.exists_eq_add_of_le hge
  rw [hk] at hmem
  have e : (a ++ List.replicate N c ++ b).drop (a.length + N + k) = b.drop k := by
    have : a.length + N = (a ++ List.replicate N c).length := by simp
    rw [this, List.drop_append]
  rw [e] at hmem
  exact hb (List.mem_of_mem_drop hmem)

/-- Witness of C4: pad character `*` and template `a%3b`. -/
theorem C4_normal_directive_witness :
    get '*' "a%3b".toList [] = Outcome.done "a***b".toList :=
  C4_normal_directive '*' "a".toList "b".toList 3 (by decide) (by decide) (by decide)
    (by decide) (by decide) (by decide)

/-! ## An unterminated smart directive -/

/-- One turn of the loop of `padding()` at a smart directive `%.N` behind which
the buffer holds no `.%`: the buffer is emptied and the scan ends. -/
theorem padding_loop_unterminated (c : Char) (fuel : Nat) (a r : List Char)
    (poss : List padd_vec) (pos N : Nat) (hN0 : 0 < N) (hN : N < 2 ^ 31)
    (hpos : pos ≤ a.length) (ha : '%' ∉ a.drop pos) (hr : starts_with_digit r = false)
    (hx : ¬ ['.', '%'] <:+: r) :
    padding_loop c (fuel + 1) (a ++ '%' :: '.' :: (decimal N ++ r)) poss pos =
      Outcome.done ([], poss) := by
  have hd := decimal_length_le N hN
  have hlen : (a ++ '%' :: '.' :: (decimal N ++ r)).length
      = a.length + 2 + (decimal N).length + r.length := by
    simp only [List.length_append, List.length_cons]; omega
  have hpos1 : pos < (a ++ '%' :: '.' :: (decimal N ++ r)).length := by omega
  have hfc : find_char (a ++ '%' :: '.' :: (decimal N ++ r)) '%' pos = some a.length := by
    unfold find_char
    rw [List.drop_append_of_le_length hpos, find_char_aux_append '%' _ _ pos ha,
      List.length_drop]
    exact congrArg some (by omega)
  have hl2 : ¬ a.length + 1 ≥ (a ++ '%' :: '.' :: (decimal N ++ r)).length := by omega
  have hdot : (a ++ '%' :: '.' :: (decimal N ++ r))[a.length + 1]? = some '.' := by
    have e := drop_directive a ('.' :: (decimal N ++ r)) 0
    rw [← List.head?_drop, e]
    rfl
  have e1 : (a ++ '%' :: '.' :: (decimal N ++ r)).drop (a.length + 1 + 1) = decimal N ++ r :=
    drop_directive a ('.' :: (decimal N ++ r)) 1
  have hsk : skip_digits (a ++ '%' :: '.' :: (decimal N ++ r)) (a.length + 1 + 1)
      = a.length + 1 + 1 + (decimal N).length := by
    unfold skip_digits
    rw [e1, takeWhile_digits_append _ _ (decimal_isDigit N) hr]
  have hdg : (a.length + 1 + 1 + (decimal N).length - (a.length + 1 + 1)) % UINT8
      = (decimal N).length := by
    unfold UINT8; omega
  have hsub : substr (a ++ '%' :: '.' :: (decimal N ++ r)) (a.length + 1 + 1)
      (decimal N).length = decimal N := by
    unfold substr
    rw [e1, List.take_left]
  have hfs : find_str (a ++ '%' :: '.' :: (decimal N ++ r)) ['.', '%']
      (a.length + 1 + 1 + (decimal N).length) = none := by
    apply find_str_none _ _ _ (by simp)
    have e := drop_directive a ('.' :: (decimal N ++ r)) (1 + (decimal N).length)
    rw [← Nat.add_assoc] at e
    rw [e, Nat.add_comm 1, List.drop_succ_cons, List.drop_left]
    exact hx
  have hN1 : ¬ N = 0 := by omega
  rw [padding_loop]
  simp only [hpos1, not_true, if_false, hfc, hl2, hdot, decide_True, if_true, hsk, hdg, hsub,
    stoi_decimal N hN, hN1, hfs]

/-- C6 (amended): when the first `%` of the template opens a smart directive
`%.N` with `0 < N < 2 ^ 31` and no `.%` occurs behind the numeral, the
constructed string is empty, for every pad character and argument list. -/
theorem C6_unterminated_first_directive (c : Char) (a r : List Char) (N : Nat)
    (args : List Arg) (hN0 : 0 < N) (hN : N < 2 ^ 31) (ha : '%' ∉ a)
    (hr : starts_with_digit r = false) (hx : ¬ ['.', '%'] <:+: r) :
    get c (a ++ '%' :: '.' :: (decimal N ++ r)) args = Outcome.done [] := by
  apply get_of_padding c _ [] args _ (by decide)
  simp only [padding, init]
  rw [padding_loop_unterminated c _ a r [] 0 N hN0 hN (Nat.zero_le _) (by simpa using ha) hr hx]

/-- Witness of C6 (amended): the template `%.5Hi`. -/
theorem C6_unterminated_first_directive_witness :
    get ' ' "%.5Hi".toList [Arg.int 1] = Outcome.done [] :=
  C6_unterminated_first_directive ' ' [] "Hi".toList 5 [Arg.int 1] (by decide) (by decide)
    (by decide) (by decide) (by decide)

/-- C6 as stated fails: the template `%.99999999999Hi` holds the smart
directive `%.99999999999` with no `.%` behind it, and is returned unchanged
(the numeral is above `INT_MAX`, so `std::stoi` throws and the directive is
skipped). -/
theorem C6_unterminated_counterexample :
    "%.99999999999Hi".toList = '%' :: '.' :: (decimal 99999999999 ++ "Hi".toList) ∧
      ¬ ['.', '%'] <:+: "Hi".toList ∧
      get ' ' "%.99999999999Hi".toList [] = Outcome.done "%.99999999999Hi".toList ∧
      get ' ' "%.99999999999Hi".toList [] ≠ Outcome.done [] := by
  decide

/-! ## The code at inputs where it departs from its documentation -/

/-- C1: on the instance `%.3Hi.%` of the claim (default pad character) the
code returns `H  i`: the record of a one-digit width ends one position early,
so two pad characters are inserted before the last character of the content. -/
theorem C1_smart_padding_one_digit :
    get ' ' "%.3Hi.%".toList [] = Outcome.done "H  i".toList := by
  decide

/-- C2: on the instance `%.4{}.%` with argument `ab` (pad character `*`) the
code returns `a***b`, not `ab**`. -/
theorem C2_smart_placeholder_one_digit :
    get '*' "%.4{}.%".toList [Arg.text "ab".toList] = Outcome.done "a***b".toList := by
  decide

/-- C5: on the instance `%.2Hi.%` of the claim the code returns `H i`: content
that already has the requested width is altered. -/
theorem C5_smart_padding_alters_content :
    get ' ' "%.2Hi.%".toList [] = Outcome.done "H i".toList := by
  decide

/-- C7: on the template `%.100.%` construction does not return: `apply()`
inserts at position 1 of the empty buffer, `std::string::insert` throws
`std::out_of_range` and the exception leaves a `noexcept` function. -/
theorem C7_construction_terminates :
    get ' ' "%.100.%".toList [] = Outcome.terminated := by
  decide

/-- C8: on the template `%3%4` (pad character `*`) the second directive is
left unresolved: the code returns `***%4`. -/
theorem C8_adjacent_directive_unresolved :
    get '*' "%3%4".toList [] = Outcome.done "***%4".toList := by
  decide

/-! ## Positional substitution -/

theorem substituted_nil (s0 : List Char) (ss : List (List Char)) :
    substituted s0 ss [] = template s0 ss := by
  induction ss generalizing s0 with
  | nil => rfl
  | cons s1 ss ih => simp only [substituted, template, ih]

theorem variables_arg_template (c : Char) (v : Arg) (pre s T : List Char) (l : Nat)
    (hl : l ≤ pre.length) (hs : ¬ ['{', '}'] <:+: (pre.drop l ++ s)) :
    variables_arg { src := pre ++ (s ++ '{' :: '}' :: T), lpos := some l, poss := [],
                    pad_char := c } v
      = Outcome.done { src := (pre ++ s ++ tostr v) ++ T, lpos := some (pre.length + s.length),
                       poss := [], pad_char := c } := by
  have hfs : find_str (pre ++ (s ++ '{' :: '}' :: T)) ['{', '}'] l
      = some (pre.length + s.length) := by
    unfold find_str
    have h1 : ¬ l > (pre ++ (s ++ '{' :: '}' :: T)).length := by
      simp only [List.length_append]; omega
    rw [if_neg h1, List.drop_append_of_le_length hl, ← List.append_assoc,
      find_str_aux_pair '{' '}' (by decide) _ T l hs]
    simp only [List.length_append, List.length_drop]
    exact congrArg some (by omega)
  have e0 : pre ++ (s ++ '{' :: '}' :: T) = (pre ++ s) ++ '{' :: '}' :: T := by simp
  have e1 : pre.length + s.length = (pre ++ s).length := by simp
  have her : erase (pre ++ (s ++ '{' :: '}' :: T)) (pre.length + s.length) 2
      = some ((pre ++ s) ++ T) := by
    unfold erase
    have h1 : ¬ pre.length + s.length > (pre ++ (s ++ '{' :: '}' :: T)).length := by
      simp only [List.length_append]; omega
    rw [if_neg h1, e0, e1, List.take_left, List.drop_append]
    rfl
  have hin : insert_str ((pre ++ s) ++ T) (pre.length + s.length) (tostr v)
      = some ((pre ++ s ++ tostr v) ++ T) := by
    unfold insert_str
    have h1 : ¬ pre.length + s.length > ((pre ++ s) ++ T).length := by
      simp only [List.length_append]; omega
    rw [if_neg h1, e1, List.take_left, List.drop_left]
  simp only [variables_arg, hfs, her, hin, shift_records]

theorem variables_all_template (c : Char) :
    ∀ (args : List Arg) (ss : List (List Char)) (pre s : List Char) (l : Nat),
      l ≤ pre.length → (args ≠ [] → ¬ ['{', '}'] <:+: (pre.drop l ++ s)) →
      (∀ x ∈ ss, ¬ ['{', '}'] <:+: x) →
      (∀ p ∈ List.zip args.dropLast ss, ¬ ['{', '}'] <:+: (tostr p.1 ++ p.2)) →
      ∃ st, variables_all { src := pre ++ template s ss, lpos := some l, poss := [],
                            pad_char := c } args = Outcome.done st ∧
        st.src = pre ++ substituted s ss args ∧ st.poss = [] := by
  intro args
  induction args with
  | nil =>
    intro ss pre s l _ _ _ _
    exact ⟨_, rfl, by rw [substituted_nil], rfl⟩
  | cons v vs ih =>
    intro ss pre s l hl hs0 hss hz
    have hs : ¬ ['{', '}'] <:+: (pre.drop l ++ s) := hs0 (by simp)
    cases ss with
    | nil =>
      have hf : find_str (pre ++ s) ['{', '}'] l = none := by
        apply find_str_none _ _ _ (by simp)
        rw [List.drop_append_of_le_length hl]
        exact hs
      obtain ⟨st1, h1, h2, h3, _⟩ := variables_all_exhausted
        { src := pre ++ template s [], lpos := some l, poss := [], pad_char := c } l (v :: vs)
        rfl hf
      exact ⟨st1, h1, h2, h3⟩
    | cons s1 ss =>
      have e : pre.length + s.length = (pre ++ s).length := by simp
      have hnext : vs ≠ [] → ¬ ['{', '}'] <:+:
          ((pre ++ s ++ tostr v).drop (pre.length + s.length) ++ s1) := by
        intro hvs
        rw [e, List.drop_left]
        cases vs with
        | nil => exact absurd rfl hvs
        | cons w ws => exact hz (v, s1) (by simp [List.dropLast])
      have hrest : ∀ p ∈ List.zip vs.dropLast ss, ¬ ['{', '}'] <:+: (tostr p.1 ++ p.2) := by
        intro p hp
        cases vs with
        | nil => simp at hp
        | cons w ws =>
          apply hz p
          simp only [List.dropLast, List.zip_cons_cons, List.mem_cons]
          exact Or.inr hp
      obtain ⟨st, h1, h2, h3⟩ := ih ss (pre ++ s ++ tostr v) s1 (pre.length + s.length)
        (by simp only [List.length_append]; omega) hnext
        (fun x hx => hss x (by simp [hx])) hrest
      refine ⟨st, ?_, ?_, h3⟩
      · simp only [variables_all, template, variables_arg_template c v pre s _ l hl hs]
        exact h1
      · rw [h2]
        simp only [substituted, List.append_assoc]

/-- C3 (amended): for a template `s0 {} s1 {} ... {} sk` without `%` whose
pieces hold no `{}`, and arguments `v1 .. vn` such that no argument text `vi`
that has a successor, followed by the template piece `si`, holds a `{}`, the
result is `s0 ++ w1 ++ s1 ++ ... ++ wk ++ sk` with `wi` the text of the `i`-th
argument while arguments last and `{}` afterwards; arguments beyond the `k`-th
have no effect. -/
theorem C3_positional_substitution (c : Char) (s0 : List Char) (ss : List (List Char))
    (args : List Arg) (hp : '%' ∉ template s0 ss)
    (hs : ∀ x ∈ s0 :: ss, ¬ ['{', '}'] <:+: x)
    (hz : ∀ p ∈ List.zip args.dropLast ss, ¬ ['{', '}'] <:+: (tostr p.1 ++ p.2)) :
    get c (template s0 ss) args = Outcome.done (substituted s0 ss args) := by
  obtain ⟨st, h1, h2, h3⟩ := variables_all_template c args ss [] s0 0 (Nat.le_refl 0)
    (fun _ => by simpa using hs s0 (by simp)) (fun x hx => hs x (by simp [hx])) hz
  simp only [List.nil_append] at h1 h2
  have h4 : variables_all (init c (template s0 ss)) args = Outcome.done st := h1
  simp only [get, construct, padding_no_percent c _ hp, h4, apply_no_record st h3, h2]

/-- Witness of C3 (amended): `{} and {}` with the arguments `1`, `two` and a
third one gives `1 and two`. -/
theorem C3_positional_substitution_witness :
    get ' ' "{} and {}".toList [Arg.int 1, Arg.text "two".toList, Arg.int 3]
      = Outcome.done "1 and two".toList :=
  C3_positional_substitution ' ' [] [" and ".toList, []]
    [Arg.int 1, Arg.text "two".toList, Arg.int 3] (by decide) (by decide) (by decide)

/-- C3 as stated fails: the template `{}` has one placeholder (`s0` and `s1`
empty); with the text arguments `{}` and `x` the claim gives `{}` and lets the
second argument have no effect, while the code returns `x`. -/
theorem C3_positional_counterexample :
    template [] [[]] = "{}".toList ∧ '%' ∉ template [] [[]] ∧
      substituted [] [[]] [Arg.text "{}".toList, Arg.text "x".toList] = "{}".toList ∧
      get ' ' (template [] [[]]) [Arg.text "{}".toList, Arg.text "x".toList]
        = Outcome.done "x".toList ∧
      get ' ' (template [] [[]]) [Arg.text "{}".toList, Arg.text "x".toList]
        ≠ Outcome.done (substituted [] [[]] [Arg.text "{}".toList, Arg.text "x".toList]) := by
  decide

/-! ## Exhausted placeholders -/

/-- C11: in a state whose buffer holds no `{}` at or after `lpos`, one call of
`variables()` changes neither the buffer nor a padding record and leaves the
search position at "not found"; after it every further call, for any
arguments, returns the same state. -/
theorem C11_exhaustion_sticky (st : State) (a : Arg)
    (h : ∀ l, st.lpos = some l → ¬ ['{', '}'] <:+: st.src.drop l) :
    ∃ st1, variables_arg st a = Outcome.done st1 ∧ st1.src = st.src ∧ st1.poss = st.poss ∧
      st1.lpos = none ∧ ∀ args, variables_all st1 args = Outcome.done st1 := by
  refine ⟨{ st with lpos := none }, ?_, rfl, rfl, rfl,
    fun args => variables_all_lpos_none _ args rfl⟩
  cases hl : st.lpos with
  | none =>
    simp only [variables_arg, hl]
    cases st
    simp only at hl
    subst hl
    rfl
  | some l =>
    simp only [variables_arg, hl, find_str_none st.src _ l (by simp) (h l hl)]

/-- Witness of C11: the buffer `a{}bc` searched from position 3, with one
padding record. -/
theorem C11_exhaustion_sticky_witness :
    ∃ st1, variables_arg ⟨"a{}bc".toList, some 3, [⟨0, 1, 5⟩], ' '⟩ (Arg.int 7)
        = Outcome.done st1 ∧
      st1.src = "a{}bc".toList ∧ st1.poss = [⟨0, 1, 5⟩] ∧ st1.lpos = none ∧
      ∀ args, variables_all st1 args = Outcome.done st1 :=
  C11_exhaustion_sticky ⟨"a{}bc".toList, some 3, [⟨0, 1, 5⟩], ' '⟩ (Arg.int 7)
    (fun l hl => by cases hl; decide)

/-- C12: on `%.3Hi.%` the scanner leaves the buffer `Hi` and the single record
`{begin = 0, end = 1, targetWidth = 3}`: the recorded end is one short of the
end of the content `Hi`. -/
theorem C12_record_one_digit :
    padding (init ' ' "%.3Hi.%".toList)
      = Outcome.done { src := "Hi".toList, lpos := some 0, poss := [⟨0, 1, 3⟩],
                       pad_char := ' ' } := by
  decide

/-! ## Arguments without an opening brace -/

theorem no_placeholder_append (v s : List Char) (hv : '{' ∉ v)
    (hs : ¬ ['{', '}'] <:+: s) : ¬ ['{', '}'] <:+: (v ++ s) := by
  induction v with
  | nil => simpa using hs
  | cons x v ih =>
    intro h
    rw [List.cons_append, List.infix_cons_iff] at h
    rcases h with h | h
    · rw [List.cons_prefix_cons] at h
      exact hv (List.mem_cons.2 (Or.inl h.1))
    · exact ih (fun e => hv (List.mem_cons.2 (Or.inr e))) h

theorem get_template (c : Char) (s0 : List Char) (ss : List (List Char)) (args : List Arg)
    (hp : '%' ∉ template s0 ss) (hs : ∀ x ∈ s0 :: ss, ¬ ['{', '}'] <:+: x)
    (hz : ∀ p ∈ List.zip args.dropLast ss, ¬ ['{', '}'] <:+: (tostr p.1 ++ p.2)) :
    get c (template s0 ss) args = Outcome.done (substituted s0 ss args) := by
  obtain ⟨st, h1, h2, h3⟩ := variables_all_template c args ss [] s0 0 (Nat.le_refl 0)
    (fun _ => by simpa using hs s0 (by simp)) (fun x hx => hs x (by simp [hx])) hz
  simp only [List.nil_append] at h1 h2
  have h4 : variables_all (init c (template s0 ss)) args = Outcome.done st := h1
  simp only [get, construct, padding_no_percent c _ hp, h4, apply_no_record st h3, h2]

/-- C19: for a template `s0 {} s1 {} ... {} sk` without `%` whose pieces hold
no `{}`, and arguments none of whose texts contains `{`, the result is
`s0 ++ w1 ++ s1 ++ ... ++ wk ++ sk` with `wi` the text of the `i`-th argument
for `i ≤ min(n, k)` and `{}` otherwise. -/
theorem C19_positional_without_brace (c : Char) (s0 : List Char) (ss : List (List Char))
    (args : List Arg) (hp : '%' ∉ template s0 ss)
    (hs : ∀ x ∈ s0 :: ss, ¬ ['{', '}'] <:+: x) (hv : ∀ v ∈ args, '{' ∉ tostr v) :
    get c (template s0 ss) args = Outcome.done (substituted s0 ss args) := by
  apply get_template c s0 ss args hp hs
  intro p hp2
  obtain ⟨h1, h2⟩ := List.of_mem_zip (show (p.1, p.2) ∈ _ from hp2)
  exact no_placeholder_append _ _ (hv p.1 (List.dropLast_subset _ h1))
    (hs p.2 (by simp [h2]))

/-- Witness of C19: `<{}|{}|{}>` with the arguments `}a`, `-5`; the third
placeholder stays. -/
theorem C19_positional_without_brace_witness :
    get ' ' "<{}|{}|{}>".toList [Arg.text ['}', 'a'], Arg.int (-5)]
      = Outcome.done "<\x7da|-5|{}>".toList :=
  C19_positional_without_brace ' ' "<".toList ["|".toList, "|".toList, ">".toList]
    [Arg.text ['}', 'a'], Arg.int (-5)] (by decide) (by decide) (by decide)

/-! ## The shift rule of `variables()` -/

theorem find_str_aux_some (n s : List Char) (k p : Nat)
    (h : find_str_aux n s k = some p) :
    k ≤ p ∧ (p - k) + n.length ≤ s.length ∧ n <+: s.drop (p - k) := by
  induction s generalizing k with
  | nil =>
    by_cases hn : n = []
    · simp only [find_str_aux, hn, if_true, Option.some.injEq] at h
      subst h
      simp [hn]
    · simp [find_str_aux, hn] at h
  | cons x xs ih =>
    simp only [find_str_aux] at h
    by_cases hs : starts_with n (x :: xs) = true
    · simp only [hs, if_true, Option.some.injEq] at h
      subst h
      have hp := (starts_with_iff _ _).1 hs
      refine ⟨Nat.le_refl _, ?_, ?_⟩
      · have := hp.length_le
        omega
      · simpa using hp
    · simp only [hs] at h
      obtain ⟨h1, h2, h3⟩ := ih _ h
      have e : p - k = (p - (k + 1)) + 1 := by omega
      refine ⟨by omega, ?_, ?_⟩
      · rw [List.length_cons]; omega
      · rw [e, List.drop_succ_cons]; exact h3

theorem find_str_some (s n : List Char) (pos p : Nat) (h : find_str s n pos = some p) :
    pos ≤ p ∧ p + n.length ≤ s.length ∧ n <+: s.drop p := by
  unfold find_str at h
  by_cases hp : pos > s.length
  · simp [hp] at h
  · rw [if_neg hp] at h
    obtain ⟨h1, h2, h3⟩ := find_str_aux_some n _ pos p h
    rw [List.length_drop] at h2
    rw [List.drop_drop] at h3
    have e : pos + (p - pos) = p := by omega
    refine ⟨h1, by omega, ?_⟩
    rw [e] at h3
    exact h3

theorem shift_records_length (p L : Nat) (first : Bool) (rs : List padd_vec) :
    (shift_records p L first rs).length = rs.length := by
  induction rs generalizing first with
  | nil => rfl
  | cons r rs ih => simp only [shift_records, List.length_cons, ih]

theorem shift_records_getElem (p L : Nat) :
    ∀ (rs : List padd_vec) (first : Bool) (i : Nat) (r : padd_vec), rs[i]? = some r →
      (shift_records p L first rs)[i]? = some
        (if r.end_pos ≤ p then r
         else { begin_pos := if first = true ∧ i = 0 then r.begin_pos
                             else shift_index r.begin_pos L,
                end_pos := shift_index r.end_pos L,
                value := r.value }) := by
  intro rs
  induction rs with
  | nil => intro first i r h; simp at h
  | cons x xs ih =>
    intro first i r h
    cases i with
    | zero =>
      simp only [List.getElem?_cons_zero, Option.some.injEq] at h
      subst h
      cases first <;> simp [shift_records]
    | succ i =>
      simp only [List.getElem?_cons_succ] at h
      simp only [shift_records, List.getElem?_cons_succ]
      rw [ih false i r h]
      simp

/-- C13 (amended): when `variables()` replaces the placeholder found at
position `p` by a value of length `L`, every record with `end ≤ p` is
unchanged; for a record with `end > p` the new end is `end + L - 2` when
`end + L > 2`, the begin of the first record of the list is unchanged, and the
begin of every other such record becomes `begin + L - 2` when `begin + L > 2`
(positions below `2 ^ 64`); the widths are unchanged. -/
theorem C13_shift_rule (st : State) (arg : Arg) (l p : Nat) (hl : st.lpos = some l)
    (hf : find_str st.src ['{', '}'] l = some p) :
    ∃ st1, variables_arg st arg = Outcome.done st1 ∧
      st1.poss.length = st.poss.length ∧
      ∀ i r, st.poss[i]? = some r → ∃ r1, st1.poss[i]? = some r1 ∧ r1.value = r.value ∧
        (r.end_pos ≤ p → r1 = r) ∧
        (p < r.end_pos →
          (2 < r.end_pos + (tostr arg).length → r.end_pos + (tostr arg).length < SIZE_T →
            r1.end_pos = r.end_pos + (tostr arg).length - 2) ∧
          (i = 0 → r1.begin_pos = r.begin_pos) ∧
          (i ≠ 0 → 2 < r.begin_pos + (tostr arg).length →
            r.begin_pos + (tostr arg).length < SIZE_T →
            r1.begin_pos = r.begin_pos + (tostr arg).length - 2)) := by
  obtain ⟨_, h2, _⟩ := find_str_some st.src _ l p hf
  simp only [List.length_cons, List.length_nil] at h2
  have her : erase st.src p 2 = some (st.src.take p ++ st.src.drop (p + 2)) := by
    unfold erase
    rw [if_neg (by omega)]
  have hin : insert_str (st.src.take p ++ st.src.drop (p + 2)) p (tostr arg)
      = some ((st.src.take p ++ st.src.drop (p + 2)).take p ++ tostr arg
          ++ (st.src.take p ++ st.src.drop (p + 2)).drop p) := by
    unfold insert_str
    rw [if_neg]
    simp only [List.length_append, List.length_take, List.length_drop]
    omega
  refine ⟨_, by simp only [variables_arg, hl, hf, her, hin]; rfl, ?_, ?_⟩
  · exact shift_records_length _ _ _ _
  · intro i r hr
    refine ⟨_, shift_records_getElem p (tostr arg).length st.poss true i r hr, ?_, ?_, ?_⟩
    · split <;> rfl
    · intro h
      rw [if_pos h]
    · intro h
      rw [if_neg (by omega)]
      refine ⟨?_, ?_, ?_⟩
      · intro h1 h2
        simp only [shift_index, Nat.mod_eq_of_lt h2]
        rw [if_pos h1]
      · intro h0
        simp [h0]
      · intro h0 h1 h2
        simp only [h0, and_false, if_false, shift_index, Nat.mod_eq_of_lt h2]
        rw [if_pos h1]

/-- Witness of C13 (amended): the buffer `x{}yz` (placeholder at position 1)
with three records and the argument `abc`. -/
theorem C13_shift_rule_witness :
    ∃ st1, variables_arg ⟨"x{}yz".toList, some 0, [⟨0, 4, 9⟩, ⟨3, 5, 9⟩, ⟨0, 1, 9⟩], ' '⟩
        (Arg.text "abc".toList) = Outcome.done st1 ∧
      st1.poss.length = 3 ∧ st1.poss = [⟨0, 5, 9⟩, ⟨4, 6, 9⟩, ⟨0, 1, 9⟩] := by
  obtain ⟨st1, h1, h2, _⟩ := C13_shift_rule
    ⟨"x{}yz".toList, some 0, [⟨0, 4, 9⟩, ⟨3, 5, 9⟩, ⟨0, 1, 9⟩], ' '⟩
    (Arg.text "abc".toList) 0 1 rfl (by decide)
  refine ⟨st1, h1, h2, ?_⟩
  have h4 : Outcome.done st1 = Outcome.done
      (⟨"xabcyz".toList, some 1, [⟨0, 5, 9⟩, ⟨4, 6, 9⟩, ⟨0, 1, 9⟩], ' '⟩ : State) := by
    rw [← h1]
    decide
  rw [Outcome.done.inj h4]

/-- C13 as stated fails: after `padding()` on `%.10ab.%{}` the record
`{0, 2, 10}` ends at the position `p = 2` of the placeholder; the claim moves
its end to `2 + 3 - 2 = 3` for the value `xyz`, the code leaves it at `2`. -/
theorem C13_shift_counterexample :
    padding (init ' ' "%.10ab.%{}".toList)
        = Outcome.done ⟨"ab{}".toList, some 0, [⟨0, 2, 10⟩], ' '⟩ ∧
      find_str "ab{}".toList ['{', '}'] 0 = some 2 ∧
      variables_arg ⟨"ab{}".toList, some 0, [⟨0, 2, 10⟩], ' '⟩ (Arg.text "xyz".toList)
        = Outcome.done ⟨"abxyz".toList, some 2, [⟨0, 2, 10⟩], ' '⟩ ∧
      (2 : Nat) + 3 - 2 ≠ 2 := by
  decide

/-! ## `apply()` on valid records -/

theorem valid_records_le (k : Nat) (rs : List padd_vec) (len : Nat)
    (h : valid_records k rs len) : k ≤ len := by
  induction rs generalizing k with
  | nil => exact h
  | cons r rs ih =>
    obtain ⟨h1, h2, h3⟩ := h
    have := ih _ h3
    omega

theorem total_width_shift (padd : Nat) (rs : List padd_vec) :
    total_width (rs.map (shift_by padd)) = total_width rs := by
  induction rs with
  | nil => rfl
  | cons r rs ih =>
    simp only [total_width, List.map_cons, List.sum_cons] at ih ⊢
    rw [ih]
    rfl

theorem valid_records_shift (padd len : Nat) (hlen : len + padd < SIZE_T) :
    ∀ (rs : List padd_vec) (k : Nat), valid_records k rs len →
      valid_records (k + padd) (rs.map (shift_by padd)) (len + padd) := by
  intro rs
  induction rs with
  | nil =>
    intro k h
    simp only [valid_records, List.map_nil] at h ⊢
    omega
  | cons r rs ih =>
    intro k h
    obtain ⟨h1, h2, h3⟩ := h
    have h4 := valid_records_le _ _ _ h3
    have e1 : (r.begin_pos + padd) % SIZE_T = r.begin_pos + padd :=
      Nat.mod_eq_of_lt (by omega)
    have e2 : (r.end_pos + padd) % SIZE_T = r.end_pos + padd :=
      Nat.mod_eq_of_lt (by omega)
    simp only [valid_records, List.map_cons, shift_by, e1, e2]
    exact ⟨by omega, by omega, ih _ h3⟩

theorem padded_shift (c : Char) (padd len : Nat) (hlen : len + padd < SIZE_T) :
    ∀ (rs : List padd_vec) (rem : List Char) (k : Nat), valid_records k rs len →
      padded c rem (k + padd) (rs.map (shift_by padd)) = padded c rem k rs := by
  intro rs
  induction rs with
  | nil => intro rem k _; rfl
  | cons r rs ih =>
    intro rem k h
    obtain ⟨h1, h2, h3⟩ := h
    have h4 := valid_records_le _ _ _ h3
    have e1 : (r.begin_pos + padd) % SIZE_T = r.begin_pos + padd :=
      Nat.mod_eq_of_lt (by omega)
    have e2 : (r.end_pos + padd) % SIZE_T = r.end_pos + padd :=
      Nat.mod_eq_of_lt (by omega)
    have e3 : r.end_pos + padd - (k + padd) = r.end_pos - k := by omega
    have e4 : r.end_pos + padd - (r.begin_pos + padd) = r.end_pos - r.begin_pos := by omega
    simp only [padded, List.map_cons, shift_by, e1, e2, e3, e4, ih _ _ h3]

theorem take_append_span (src0 rem : List Char) (e : Nat) (h1 : src0.length ≤ e) :
    (src0 ++ rem).take e = src0 ++ rem.take (e - src0.length) := by
  rw [List.take_append_eq_append_take, List.take_of_length_le h1]

theorem drop_append_span (src0 rem : List Char) (e : Nat) (h1 : src0.length ≤ e) :
    (src0 ++ rem).drop e = rem.drop (e - src0.length) := by
  rw [List.drop_append_eq_append_drop, List.drop_of_length_le h1, List.nil_append]

theorem apply_loop_valid (c : Char) :
    ∀ (n : Nat) (rest pre : List padd_vec) (src0 rem : List Char), rest.length = n →
      valid_records src0.length rest (src0.length + rem.length) →
      src0.length + rem.length + total_width rest < SIZE_T →
      ∃ poss1, apply_loop c n (src0 ++ rem) (pre ++ rest) pre.length
        = Outcome.done (src0 ++ padded c rem src0.length rest, poss1) := by
  intro n
  induction n with
  | zero =>
    intro rest pre src0 rem hn _ _
    have : rest = [] := List.length_eq_zero.1 hn
    subst this
    exact ⟨_, rfl⟩
  | succ n ih =>
    intro rest pre src0 rem hn hv hb
    cases rest with
    | nil => simp at hn
    | cons r rs =>
      obtain ⟨h1, h2, h3⟩ := hv
      have h4 := valid_records_le _ _ _ h3
      have hget : (pre ++ r :: rs)[pre.length]? = some r := by
        rw [List.getElem?_append_right (Nat.le_refl _), Nat.sub_self]
        exact List.getElem?_cons_zero
      have hlen : (r.end_pos + SIZE_T - r.begin_pos) % SIZE_T = r.end_pos - r.begin_pos := by
        unfold SIZE_T at hb ⊢
        omega
      have hb2 : src0.length + rem.length + (r.value + total_width rs) < SIZE_T := by
        simpa [total_width] using hb
      have hk : r.end_pos - src0.length ≤ rem.length := by omega
      rw [apply_loop]
      simp only [hget, hlen]
      by_cases hgt : r.value > r.end_pos - r.begin_pos
      · obtain ⟨poss1, hp⟩ := ih (rs.map (shift_by (r.value - (r.end_pos - r.begin_pos))))
          (pre ++ [shift_by (r.value - (r.end_pos - r.begin_pos)) r])
          (src0 ++ rem.take (r.end_pos - src0.length)
            ++ List.replicate (r.value - (r.end_pos - r.begin_pos)) c)
          (rem.drop (r.end_pos - src0.length))
          (by simpa using hn)
          (by
            have hv2 := valid_records_shift (r.value - (r.end_pos - r.begin_pos))
              (src0.length + rem.length) (by omega) rs _ h3
            simp only [List.length_append, List.length_take, List.length_replicate,
              List.length_drop, Nat.min_eq_left hk]
            have e1 : src0.length + (r.end_pos - src0.length)
                + (r.value - (r.end_pos - r.begin_pos))
                = r.end_pos + (r.value - (r.end_pos - r.begin_pos)) := by omega
            have e2 : r.end_pos + (r.value - (r.end_pos - r.begin_pos))
                + (rem.length - (r.end_pos - src0.length))
                = src0.length + rem.length + (r.value - (r.end_pos - r.begin_pos)) := by
              omega
            rw [e1, e2]
            exact hv2)
          (by
            simp only [List.length_append, List.length_take, List.length_replicate,
              List.length_drop, Nat.min_eq_left hk, total_width_shift]
            omega)
        have hins : insert_fill (src0 ++ rem) r.end_pos (r.value - (r.end_pos - r.begin_pos)) c
            = some ((src0 ++ rem.take (r.end_pos - src0.length)
                ++ List.replicate (r.value - (r.end_pos - r.begin_pos)) c)
                ++ rem.drop (r.end_pos - src0.length)) := by
          unfold insert_fill
          rw [if_neg (by simp only [List.length_append]; omega),
            take_append_span _ _ _ (by omega), drop_append_span _ _ _ (by omega)]
        have hposs : (pre ++ r :: rs).take pre.length
            ++ ((pre ++ r :: rs).drop pre.length).map
                (shift_by (r.value - (r.end_pos - r.begin_pos)))
            = (pre ++ [shift_by (r.value - (r.end_pos - r.begin_pos)) r])
                ++ rs.map (shift_by (r.value - (r.end_pos - r.begin_pos))) := by
          simp
        have hidx : pre.length + 1
            = (pre ++ [shift_by (r.value - (r.end_pos - r.begin_pos)) r]).length := by simp
        simp only [hgt, if_true, hins, hposs]
        rw [hidx, hp]
        refine ⟨poss1, ?_⟩
        have hsl : (src0 ++ rem.take (r.end_pos - src0.length)
            ++ List.replicate (r.value - (r.end_pos - r.begin_pos)) c).length
            = r.end_pos + (r.value - (r.end_pos - r.begin_pos)) := by
          simp only [List.length_append, List.length_take, List.length_replicate,
            Nat.min_eq_left hk]
          omega
        rw [hsl, padded_shift c _ (src0.length + rem.length) (by omega) rs _ _ h3]
        simp only [padded, List.append_assoc]
      · obtain ⟨poss1, hp⟩ := ih rs (pre ++ [r]) (src0 ++ rem.take (r.end_pos - src0.length))
          (rem.drop (r.end_pos - src0.length)) (by simpa using hn)
          (by
            simp only [List.length_append, List.length_take, List.length_drop,
              Nat.min_eq_left hk]
            have e1 : src0.length + (r.end_pos - src0.length) = r.end_pos := by omega
            have e2 : r.end_pos + (rem.length - (r.end_pos - src0.length))
                = src0.length + rem.length := by omega
            rw [e1, e2]
            exact h3)
          (by
            simp only [List.length_append, List.length_take, List.length_drop,
              Nat.min_eq_left hk]
            omega)
        have hsrc : src0 ++ rem = (src0 ++ rem.take (r.end_pos - src0.length))
            ++ rem.drop (r.end_pos - src0.length) := by
          rw [List.append_assoc, List.take_append_drop]
        have hposs : pre ++ r :: rs = (pre ++ [r]) ++ rs := by simp
        have hidx : pre.length + 1 = (pre ++ [r]).length := by simp
        simp only [hgt, if_false]
        rw [hsrc, hposs, hidx, hp]
        refine ⟨poss1, ?_⟩
        have hsl : (src0 ++ rem.take (r.end_pos - src0.length)).length = r.end_pos := by
          simp only [List.length_append, List.length_take, Nat.min_eq_left hk]
          omega
        have hz : r.value - (r.end_pos - r.begin_pos) = 0 := by omega
        rw [hsl]
        simp only [padded, hz, List.replicate_zero, List.append_nil, List.append_assoc,
          List.take_append_drop]

/-- C16: for a record list whose spans are in range, ordered and disjoint,
`apply()` returns the buffer in which the content of each span is followed
by `max(0, targetWidth - (end - begin))` copies of the pad character, all
original characters kept in order (the padded buffer staying below `2 ^ 64`
characters). -/
theorem C16_apply_valid_records (st : State)
    (hv : valid_records 0 st.poss st.src.length)
    (hb : st.src.length + total_width st.poss < SIZE_T) :
    ∃ st1, apply st = Outcome.done st1 ∧ st1.src = padded st.pad_char st.src 0 st.poss := by
  obtain ⟨poss1, hp⟩ := apply_loop_valid st.pad_char st.poss.length st.poss [] [] st.src rfl
    (by simpa using hv) (by simpa using hb)
  simp only [List.nil_append, List.length_nil] at hp
  exact ⟨{ st with src := padded st.pad_char st.src 0 st.poss, poss := poss1 },
    by simp only [apply, hp], rfl⟩

/-- Witness of C16: the buffer `abcdef` with the spans `[0, 2)` of width 4,
`[2, 2)` of width 1 and `[3, 6)` of width 2. -/
theorem C16_apply_valid_records_witness :
    ∃ st1, apply ⟨"abcdef".toList, none, [⟨0, 2, 4⟩, ⟨2, 2, 1⟩, ⟨3, 6, 2⟩], '*'⟩
        = Outcome.done st1 ∧
      st1.src = "ab***cdef".toList :=
  C16_apply_valid_records ⟨"abcdef".toList, none, [⟨0, 2, 4⟩, ⟨2, 2, 1⟩, ⟨3, 6, 2⟩], '*'⟩
    (by simp [valid_records]) (by decide)

/-! ## A smart section -/

theorem no_dot_percent (s : List Char) (h : '%' ∉ s) : ¬ ['.', '%'] <:+: s :=
  fun hi => h (hi.subset (by simp))

theorem starts_with_digit_append (s r : List Char) (ch : Char) (hs : starts_with_digit s = false)
    (hch : ch.isDigit = false) : starts_with_digit (s ++ ch :: r) = false := by
  cases s with
  | nil => exact hch
  | cons x xs => exact hs

theorem decimal_length_two (N : Nat) (h1 : 10 ≤ N) (h2 : N ≤ 99) : (decimal N).length = 2 := by
  interval_cases N <;> rfl

/-- One turn of the loop of `padding()` at a terminated smart directive
`%.N s .%`: the delimiters and the numeral are erased, the record
`{tmp, end - 4, N}` is appended, and the scan goes on at the old position
behind the numeral. -/
theorem padding_loop_smart (c : Char) (fuel : Nat) (a s b : List Char)
    (poss : List padd_vec) (pos N : Nat) (hN0 : 0 < N) (hN : N < 2 ^ 31)
    (hpos : pos ≤ a.length) (ha : '%' ∉ a.drop pos) (hs : starts_with_digit s = false)
    (hsp : '%' ∉ s) :
    padding_loop c (fuel + 1) (a ++ '%' :: '.' :: (decimal N ++ (s ++ '.' :: '%' :: b))) poss pos =
      padding_loop c fuel (a ++ (s ++ b))
        (poss ++ [⟨a.length,
            (a.length + 1 + 1 + (decimal N).length + s.length + SIZE_T - 4) % SIZE_T, N⟩])
        ((a.length + 1 + 1 + (decimal N).length + 1) % SIZE_T) := by
  have hd := decimal_length_le N hN
  have hr : starts_with_digit (s ++ '.' :: '%' :: b) = false :=
    starts_with_digit_append s _ '.' hs (by decide)
  have hlen : (a ++ '%' :: '.' :: (decimal N ++ (s ++ '.' :: '%' :: b))).length
      = a.length + 2 + (decimal N).length + s.length + 2 + b.length := by
    simp only [List.length_append, List.length_cons]; omega
  have hpos1 : pos < (a ++ '%' :: '.' :: (decimal N ++ (s ++ '.' :: '%' :: b))).length := by
    omega
  have hfc : find_char (a ++ '%' :: '.' :: (decimal N ++ (s ++ '.' :: '%' :: b))) '%' pos
      = some a.length := by
    unfold find_char
    rw [List.drop_append_of_le_length hpos, find_char_aux_append '%' _ _ pos ha,
      List.length_drop]
    exact congrArg some (by omega)
  have hl2 : ¬ a.length + 1
      ≥ (a ++ '%' :: '.' :: (decimal N ++ (s ++ '.' :: '%' :: b))).length := by omega
  have hdot : (a ++ '%' :: '.' :: (decimal N ++ (s ++ '.' :: '%' :: b)))[a.length + 1]?
      = some '.' := by
    have e := drop_directive a ('.' :: (decimal N ++ (s ++ '.' :: '%' :: b))) 0
    rw [← List.head?_drop, e]
    rfl
  have e1 : (a ++ '%' :: '.' :: (decimal N ++ (s ++ '.' :: '%' :: b))).drop (a.length + 1 + 1)
      = decimal N ++ (s ++ '.' :: '%' :: b) :=
    drop_directive a ('.' :: (decimal N ++ (s ++ '.' :: '%' :: b))) 1
  have hsk : skip_digits (a ++ '%' :: '.' :: (decimal N ++ (s ++ '.' :: '%' :: b)))
      (a.length + 1 + 1) = a.length + 1 + 1 + (decimal N).length := by
    unfold skip_digits
    rw [e1, takeWhile_digits_append _ _ (decimal_isDigit N) hr]
  have hdg : (a.length + 1 + 1 + (decimal N).length - (a.length + 1 + 1)) % UINT8
      = (decimal N).length := by
    unfold UINT8; omega
  have hsub : substr (a ++ '%' :: '.' :: (decimal N ++ (s ++ '.' :: '%' :: b)))
      (a.length + 1 + 1) (decimal N).length = decimal N := by
    unfold substr
    rw [e1, List.take_left]
  have e2 : (a ++ '%' :: '.' :: (decimal N ++ (s ++ '.' :: '%' :: b))).drop
      (a.length + 1 + 1 + (decimal N).length) = s ++ '.' :: '%' :: b := by
    have e := drop_directive a ('.' :: (decimal N ++ (s ++ '.' :: '%' :: b)))
      (1 + (decimal N).length)
    rw [← Nat.add_assoc] at e
    rw [e, Nat.add_comm 1, List.drop_succ_cons, List.drop_left]
  have hfs : find_str (a ++ '%' :: '.' :: (decimal N ++ (s ++ '.' :: '%' :: b))) ['.', '%']
      (a.length + 1 + 1 + (decimal N).length)
      = some (a.length + 1 + 1 + (decimal N).length + s.length) := by
    unfold find_str
    rw [if_neg (by omega), e2]
    exact find_str_aux_pair '.' '%' (by decide) s b _ (no_dot_percent s hsp)
  have e3 : a ++ '%' :: '.' :: (decimal N ++ (s ++ '.' :: '%' :: b))
      = (a ++ '%' :: '.' :: (decimal N ++ s)) ++ '.' :: '%' :: b := by simp
  have e4 : a.length + 1 + 1 + (decimal N).length + s.length
      = (a ++ '%' :: '.' :: (decimal N ++ s)).length := by
    simp only [List.length_append, List.length_cons]; omega
  have her1 : erase (a ++ '%' :: '.' :: (decimal N ++ (s ++ '.' :: '%' :: b)))
      (a.length + 1 + 1 + (decimal N).length + s.length) 2
      = some (a ++ '%' :: ('.' :: decimal N ++ (s ++ b))) := by
    unfold erase
    rw [if_neg (by omega), e3, e4, List.take_left, List.drop_append]
    simp
  have her2 : erase (a ++ '%' :: ('.' :: decimal N ++ (s ++ b))) a.length
      ((decimal N).length + 2) = some (a ++ (s ++ b)) := by
    unfold erase
    have h1 : ¬ a.length > (a ++ '%' :: ('.' :: decimal N ++ (s ++ b))).length := by
      simp only [List.length_append]; omega
    have e := drop_directive a ('.' :: decimal N ++ (s ++ b)) (('.' :: decimal N).length)
    rw [List.drop_left] at e
    have e5 : a.length + ((decimal N).length + 2) = a.length + 1 + ('.' :: decimal N).length := by
      simp only [List.length_cons]; omega
    rw [if_neg h1, List.take_left, e5, e]
  have hN1 : ¬ N = 0 := by omega
  rw [padding_loop]
  simp only [hpos1, not_true, if_false, hfc, hl2, hdot, decide_True, if_true, hsk, hdg, hsub,
    stoi_decimal N hN, hN1, hfs, her1, her2]

/-- The statement of C16 as a lemma for the other claims. -/
theorem apply_valid_records (st : State) (hv : valid_records 0 st.poss st.src.length)
    (hb : st.src.length + total_width st.poss < SIZE_T) :
    ∃ st1, apply st = Outcome.done st1 ∧ st1.src = padded st.pad_char st.src 0 st.poss := by
  obtain ⟨poss1, hp⟩ := apply_loop_valid st.pad_char st.poss.length st.poss [] [] st.src rfl
    (by simpa using hv) (by simpa using hb)
  simp only [List.nil_append, List.length_nil] at hp
  exact ⟨{ st with src := padded st.pad_char st.src 0 st.poss, poss := poss1 },
    by simp only [apply, hp], rfl⟩

/-- The scan of a template with one smart section between `%`-free texts. -/
theorem padding_one_section (c : Char) (a s b : List Char) (N : Nat) (hN0 : 0 < N)
    (hN : N < 2 ^ 31) (ha : '%' ∉ a) (hsp : '%' ∉ s) (hb : '%' ∉ b)
    (hs : starts_with_digit s = false) :
    padding (init c (a ++ '%' :: '.' :: (decimal N ++ (s ++ '.' :: '%' :: b))))
      = Outcome.done ⟨a ++ (s ++ b), some 0,
          [⟨a.length,
            (a.length + 1 + 1 + (decimal N).length + s.length + SIZE_T - 4) % SIZE_T, N⟩],
          c⟩ := by
  have hfuel : (a ++ '%' :: '.' :: (decimal N ++ (s ++ '.' :: '%' :: b))).length + 1
      = (a.length + (decimal N).length + s.length + b.length + 3) + 1 + 1 := by
    simp only [List.length_append, List.length_cons]; omega
  have hno : '%' ∉ (a ++ (s ++ b)).drop ((a.length + 1 + 1 + (decimal N).length + 1) % SIZE_T) :=
    fun hm => by
      have := List.mem_of_mem_drop hm
      simp only [List.mem_append] at this
      rcases this with h | h | h
      · exact ha h
      · exact hsp h
      · exact hb h
  simp only [padding, init]
  rw [hfuel, padding_loop_smart c _ a s b [] 0 N hN0 hN (Nat.zero_le _) (by simpa using ha) hs hsp,
    padding_loop_no_percent c _ _ _ _ hno]
  rfl

theorem padded_one (c : Char) (x y : List Char) (b w : Nat) :
    padded c (x ++ y) 0 [⟨b, x.length, w⟩] = x ++ List.replicate (w - (x.length - b)) c ++ y := by
  simp only [padded, Nat.sub_zero, List.take_left, List.drop_left]

/-- C18: a smart section with a two-digit width `10 ≤ N ≤ 99` between
`%`-free texts `a` and `b`, with `%`-free content `s` not starting with a
digit, is padded exactly: the result is `a ++ s ++ max(0, N - |s|)` pad
characters `++ b`. -/
theorem C18_smart_two_digit (c : Char) (a s b : List Char) (N : Nat) (h1 : 10 ≤ N)
    (h2 : N ≤ 99) (ha : '%' ∉ a) (hsp : '%' ∉ s) (hb : '%' ∉ b)
    (hs : starts_with_digit s = false)
    (ht : representable (a ++ '%' :: '.' :: (decimal N ++ (s ++ '.' :: '%' :: b)))) :
    get c (a ++ '%' :: '.' :: (decimal N ++ (s ++ '.' :: '%' :: b))) []
      = Outcome.done (a ++ s ++ List.replicate (N - s.length) c ++ b) := by
  have hd := decimal_length_two N h1 h2
  unfold representable at ht
  simp only [List.length_append, List.length_cons, hd] at ht
  have hp := padding_one_section c a s b N (by omega) (by omega) ha hsp hb hs
  have he : (a.length + 1 + 1 + (decimal N).length + s.length + SIZE_T - 4) % SIZE_T
      = (a ++ s).length := by
    rw [hd, List.length_append]
    unfold SIZE_T
    omega
  rw [he] at hp
  obtain ⟨st1, hs1, hs2⟩ := apply_valid_records
    { src := a ++ (s ++ b), lpos := some 0, poss := [⟨a.length, (a ++ s).length, N⟩],
      pad_char := c }
    (by simp [valid_records])
    (by
      simp only [total_width, List.map_cons, List.map_nil, List.sum_cons, List.sum_nil,
        List.length_append]
      unfold SIZE_T
      omega)
  simp only [get, construct, hp, variables_all, hs1, hs2]
  have e : a ++ (s ++ b) = (a ++ s) ++ b := by simp
  rw [e, padded_one c (a ++ s) b a.length N]
  simp

/-- Witness of C18: `[%.12Hi.%]` with the pad character `*`. -/
theorem C18_smart_two_digit_witness :
    get '*' "[%.12Hi.%]".toList [] = Outcome.done "[Hi**********]".toList :=
  C18_smart_two_digit '*' "[".toList "Hi".toList "]".toList 12 (by decide) (by decide)
    (by decide) (by decide) (by decide) (by decide) (by decide)

/-- C15: on `%.10a.%%.10b.%` (pad character `*`) only the first section is
recorded and padded; the second directive stays in the output as text. -/
theorem C15_second_section_skipped :
    get '*' "%.10a.%%.10b.%".toList [] = Outcome.done "a*********%.10b.%".toList := by
  decide

/-! ## A placeholder in front of a smart section -/

theorem variables_arg_at (c : Char) (v : Arg) (pre s T : List Char) (l : Nat)
    (poss : List padd_vec) (hl : l ≤ pre.length)
    (hs : ¬ ['{', '}'] <:+: (pre.drop l ++ s)) :
    variables_arg ⟨pre ++ (s ++ '{' :: '}' :: T), some l, poss, c⟩ v
      = Outcome.done ⟨(pre ++ s ++ tostr v) ++ T, some (pre.length + s.length),
          shift_records (pre.length + s.length) (tostr v).length true poss, c⟩ := by
  have hfs : find_str (pre ++ (s ++ '{' :: '}' :: T)) ['{', '}'] l
      = some (pre.length + s.length) := by
    unfold find_str
    have h1 : ¬ l > (pre ++ (s ++ '{' :: '}' :: T)).length := by
      simp only [List.length_append]; omega
    rw [if_neg h1, List.drop_append_of_le_length hl, ← List.append_assoc,
      find_str_aux_pair '{' '}' (by decide) _ T l hs]
    simp only [List.length_append, List.length_drop]
    exact congrArg some (by omega)
  have e0 : pre ++ (s ++ '{' :: '}' :: T) = (pre ++ s) ++ '{' :: '}' :: T := by simp
  have e1 : pre.length + s.length = (pre ++ s).length := by simp
  have her : erase (pre ++ (s ++ '{' :: '}' :: T)) (pre.length + s.length) 2
      = some ((pre ++ s) ++ T) := by
    unfold erase
    have h1 : ¬ pre.length + s.length > (pre ++ (s ++ '{' :: '}' :: T)).length := by
      simp only [List.length_append]; omega
    rw [if_neg h1, e0, e1, List.take_left, List.drop_append]
    rfl
  have hin : insert_str ((pre ++ s) ++ T) (pre.length + s.length) (tostr v)
      = some ((pre ++ s ++ tostr v) ++ T) := by
    unfold insert_str
    have h1 : ¬ pre.length + s.length > ((pre ++ s) ++ T).length := by
      simp only [List.length_append]; omega
    rw [if_neg h1, e1, List.take_left, List.drop_left]
  simp only [variables_arg, hfs, her, hin]

/-- C14 (amended): for a two-digit width `N`, `%`-free content `s` not
starting with a digit and an argument text `v` with `|v| + |s| ≥ 2`, the
template `{}%.N s .%` with the argument `v` leaves, after the substitution,
the record `{begin = 2, end = |v| + |s|}` (the begin of the first record is
not moved), and the result is `v ++ s` followed by
`max(0, N - (|v| + |s| - 2))` pad characters. -/
theorem C14_placeholder_before_section (c : Char) (N : Nat) (s v : List Char)
    (h1 : 10 ≤ N) (h2 : N ≤ 99) (hsp : '%' ∉ s) (hs : starts_with_digit s = false)
    (hlen : 2 ≤ v.length + s.length) (ht : representable (v ++ s)) :
    substituted_state c ('{' :: '}' :: '%' :: '.' :: (decimal N ++ (s ++ ['.', '%'])))
        [Arg.text v]
      = Outcome.done ⟨v ++ s, some 0, [⟨2, v.length + s.length, N⟩], c⟩ ∧
    get c ('{' :: '}' :: '%' :: '.' :: (decimal N ++ (s ++ ['.', '%']))) [Arg.text v]
      = Outcome.done (v ++ s ++ List.replicate (N - (v.length + s.length - 2)) c) := by
  have hd := decimal_length_two N h1 h2
  unfold representable at ht
  rw [List.length_append] at ht
  have hp := padding_one_section c ['{', '}'] s [] N (by omega) (by omega) (by decide) hsp
    (by simp) hs
  have he : (['{', '}'].length + 1 + 1 + (decimal N).length + s.length + SIZE_T - 4) % SIZE_T
      = 2 + s.length := by
    rw [hd]
    simp only [List.length_cons, List.length_nil]
    unfold SIZE_T
    omega
  rw [he, List.append_nil] at hp
  have hp2 : padding (init c ('{' :: '}' :: '%' :: '.' :: (decimal N ++ (s ++ ['.', '%']))))
      = Outcome.done ⟨'{' :: '}' :: s, some 0, [⟨2, 2 + s.length, N⟩], c⟩ := hp
  have hv := variables_arg_at c (Arg.text v) [] [] s 0 [⟨2, 2 + s.length, N⟩] (Nat.le_refl _)
    (by decide)
  have hsh : shift_records 0 v.length true [⟨2, 2 + s.length, N⟩]
      = [⟨2, v.length + s.length, N⟩] := by
    have e1 : ¬ 2 + s.length ≤ 0 := by omega
    have e2 : (2 + s.length + v.length) % SIZE_T = 2 + s.length + v.length :=
      Nat.mod_eq_of_lt (by unfold SIZE_T; omega)
    have e3 : 2 + s.length + v.length > 2 := by omega
    simp only [shift_records, e1, if_false, if_true, shift_index, e2, e3]
    have e4 : 2 + s.length + v.length - 2 = v.length + s.length := by omega
    rw [e4]
  have hv2 : variables_arg ⟨'{' :: '}' :: s, some 0, [⟨2, 2 + s.length, N⟩], c⟩ (Arg.text v)
      = Outcome.done ⟨v ++ s, some 0, [⟨2, v.length + s.length, N⟩], c⟩ := by
    rw [← hsh]
    exact hv
  have hsub : substituted_state c
      ('{' :: '}' :: '%' :: '.' :: (decimal N ++ (s ++ ['.', '%']))) [Arg.text v]
      = Outcome.done ⟨v ++ s, some 0, [⟨2, v.length + s.length, N⟩], c⟩ := by
    simp only [substituted_state, hp2, variables_all, hv2]
  refine ⟨hsub, ?_⟩
  obtain ⟨st1, hs1, hs2⟩ := apply_valid_records
    ⟨v ++ s, some 0, [⟨2, v.length + s.length, N⟩], c⟩
    (by simp only [valid_records, List.length_append]; omega)
    (by
      simp only [total_width, List.map_cons, List.map_nil, List.sum_cons, List.sum_nil,
        List.length_append]
      unfold SIZE_T
      omega)
  simp only [get, construct, hp2, variables_all, hv2, hs1, hs2]
  have e := padded_one c (v ++ s) [] 2 N
  rw [List.append_nil, List.append_nil, List.length_append] at e
  rw [e]

/-- Witness of C14 (amended): `{}%.10Hi.%` with the argument `abc` and the
pad character `*`. -/
theorem C14_placeholder_before_section_witness :
    substituted_state '*' "{}%.10Hi.%".toList [Arg.text "abc".toList]
      = Outcome.done ⟨"abcHi".toList, some 0, [⟨2, 5, 10⟩], '*'⟩ ∧
    get '*' "{}%.10Hi.%".toList [Arg.text "abc".toList]
      = Outcome.done "abcHi*******".toList :=
  C14_placeholder_before_section '*' 10 "Hi".toList "abc".toList (by decide) (by decide)
    (by decide) (by decide) (by decide) (by decide)

/-- C14 as stated fails: for `{}%.10Hi.%` with the argument `abc` the claim
gives `abcHi` followed by `10 - 2 = 8` pad characters and the record
`{begin = 3, end = 5}`; the code returns 7 pad characters from the record
`{begin = 2, end = 5}`. -/
theorem C14_placeholder_counterexample :
    get '*' "{}%.10Hi.%".toList [Arg.text "abc".toList]
      ≠ Outcome.done ("abc".toList ++ "Hi".toList ++ List.replicate (10 - 2) '*') ∧
    substituted_state '*' "{}%.10Hi.%".toList [Arg.text "abc".toList]
      ≠ Outcome.done ⟨"abcHi".toList, some 0, [⟨3, 5, 10⟩], '*'⟩ := by
  decide

/-! ## The position update after a short normal directive -/

/-- C20 (amended): for every pad character `c` and every string `b` of at most
`2 ^ 32 + 1` characters that does not start with a decimal digit, the template
`%1 b` without arguments gives `c b`: the 32-bit difference `1 - 2` wraps,
the scan position passes the end of the buffer, and every directive in `b` is
left as text. -/
theorem C20_short_directive_ends_scan (c : Char) (b : List Char)
    (hb : starts_with_digit b = false) (hlen : b.length ≤ 2 ^ 32 + 1) :
    get c ('%' :: '1' :: b) [] = Outcome.done (c :: b) := by
  apply get_of_padding_nil c _ _ [] _ rfl
  have hfuel : ('%' :: '1' :: b).length + 1 = (b.length + 1) + 1 + 1 := by
    simp only [List.length_cons]
  have hstep := padding_loop_normal c (b.length + 1 + 1) [] b [] 0 1 (by decide) (by decide)
    (Nat.le_refl _) (by simp) hb
  have hstep2 : padding_loop c (b.length + 1 + 1 + 1) ('%' :: '1' :: b) [] 0
      = padding_loop c (b.length + 1 + 1) (c :: b) []
          (((([] : List Char).length + 1 + (decimal 1).length
            + (1 + UINT32 - ((decimal 1).length + 1)) % UINT32) % SIZE_T + 1) % SIZE_T) := hstep
  have hpos : ((([] : List Char).length + 1 + (decimal 1).length
      + (1 + UINT32 - ((decimal 1).length + 1)) % UINT32) % SIZE_T + 1) % SIZE_T
      = 4294967298 := by decide
  simp only [padding, init]
  rw [hfuel, hstep2, hpos, padding_loop_no_percent]
  rw [List.drop_of_length_le (by simp only [List.length_cons]; omega)]
  exact List.not_mem_nil _

/-- Witness of C20 (amended): in `%1x%3%.5` only the first directive is
resolved. -/
theorem C20_short_directive_ends_scan_witness :
    get '*' "%1x%3%.5".toList [] = Outcome.done "*x%3%.5".toList :=
  C20_short_directive_ends_scan '*' "x%3%.5".toList (by decide) (by decide)

/-- Behind `%1` and `n ≥ 2 ^ 32 + 1` characters `x`, the directive `%2` is
still resolved. -/
theorem long_tail_resolved (c : Char) (n : Nat) (h1 : 2 ^ 32 + 1 ≤ n) (h2 : n < 2 ^ 62) :
    starts_with_digit (List.replicate n 'x' ++ ['%', '2']) = false ∧
      get c ('%' :: '1' :: (List.replicate n 'x' ++ ['%', '2'])) []
        = Outcome.done (c :: (List.replicate n 'x' ++ [c, c])) ∧
      get c ('%' :: '1' :: (List.replicate n 'x' ++ ['%', '2'])) []
        ≠ Outcome.done (c :: (List.replicate n 'x' ++ ['%', '2'])) := by
  have hb : starts_with_digit (List.replicate n 'x' ++ ['%', '2']) = false := by
    obtain ⟨m, rfl⟩ : ∃ m, n = m + 1 := ⟨n - 1, by omega⟩
    rfl
  have hget : get c ('%' :: '1' :: (List.replicate n 'x' ++ ['%', '2'])) []
      = Outcome.done (c :: (List.replicate n 'x' ++ [c, c])) := by
    apply get_of_padding_nil c _ _ [] _ rfl
    have hfuel : ('%' :: '1' :: (List.replicate n 'x' ++ ['%', '2'])).length + 1
        = (n + 2) + 1 + 1 + 1 := by
      simp only [List.length_cons, List.length_append, List.length_replicate, List.length_nil]
    have hstep : padding_loop c (n + 2 + 1 + 1 + 1)
        ('%' :: '1' :: (List.replicate n 'x' ++ ['%', '2'])) [] 0
        = padding_loop c (n + 2 + 1 + 1) (c :: (List.replicate n 'x' ++ ['%', '2'])) []
            (((([] : List Char).length + 1 + (decimal 1).length
              + (1 + UINT32 - ((decimal 1).length + 1)) % UINT32) % SIZE_T + 1) % SIZE_T) :=
      padding_loop_normal c (n + 2 + 1 + 1) [] (List.replicate n 'x' ++ ['%', '2']) [] 0 1
        (by decide) (by decide) (Nat.le_refl _) (by simp) hb
    have hpos : ((([] : List Char).length + 1 + (decimal 1).length
        + (1 + UINT32 - ((decimal 1).length + 1)) % UINT32) % SIZE_T + 1) % SIZE_T
        = 4294967298 := by decide
    have hno : '%' ∉ (c :: List.replicate n 'x').drop 4294967298 := by
      intro hm
      have hm2 : '%' ∈ List.replicate n 'x' := by
        have : (c :: List.replicate n 'x').drop (4294967297 + 1)
            = (List.replicate n 'x').drop 4294967297 := List.drop_succ_cons
        rw [this] at hm
        exact List.mem_of_mem_drop hm
      exact absurd (List.eq_of_mem_replicate hm2) (by decide)
    have hstep3 : padding_loop c (n + 2 + 1 + 1) (c :: (List.replicate n 'x' ++ ['%', '2'])) []
        4294967298
        = padding_loop c (n + 2 + 1) (c :: List.replicate n 'x' ++ List.replicate 2 c ++ []) []
            ((((c :: List.replicate n 'x').length + 1 + (decimal 2).length
              + (2 + UINT32 - ((decimal 2).length + 1)) % UINT32) % SIZE_T + 1) % SIZE_T) :=
      padding_loop_normal c (n + 2 + 1) (c :: List.replicate n 'x') [] [] 4294967298 2
        (by decide) (by decide)
        (by simp only [List.length_cons, List.length_replicate]; omega) hno rfl
    simp only [padding, init]
    rw [hfuel, hstep, hpos, hstep3, padding_loop_no_percent]
    · simp [init]
    · have hd : (decimal 2).length = 1 := rfl
      rw [List.drop_of_length_le]
      · exact List.not_mem_nil _
      · rw [hd]
        simp only [List.length_cons, List.length_append, List.length_replicate, List.length_nil]
        unfold UINT32 SIZE_T
        omega
  refine ⟨hb, hget, ?_⟩
  rw [hget]
  intro h
  have h1 := Outcome.done.inj h
  have h2 := List.append_cancel_left (List.cons.inj h1).2
  have h3 : c = '%' ∧ c = '2' := by simpa using h2
  exact absurd (h3.1.symm.trans h3.2) (by decide)

/-- C20 as stated fails for a string `b` longer than `2 ^ 32` characters:
with `b` = `2 ^ 32 + 1` characters `x` followed by `%2`, the scan resumes
at position `2 ^ 32 + 2`, inside the buffer, and resolves the directive `%2`
of `b`. -/
theorem C20_long_tail_counterexample :
    starts_with_digit (List.replicate 4294967297 'x' ++ ['%', '2']) = false ∧
      get '*' ('%' :: '1' :: (List.replicate 4294967297 'x' ++ ['%', '2'])) []
        = Outcome.done ('*' :: (List.replicate 4294967297 'x' ++ ['*', '*'])) ∧
      get '*' ('%' :: '1' :: (List.replicate 4294967297 'x' ++ ['%', '2'])) []
        ≠ Outcome.done ('*' :: (List.replicate 4294967297 'x' ++ ['%', '2'])) :=
  long_tail_resolved '*' 4294967297 (by decide) (by decide)

/-! ## The scan ends -/

theorem stoi_le (s : List Char) (v : Nat) (h : stoi s = some v) : v ≤ INT_MAX := by
  unfold stoi at h
  split at h
  · exact absurd h (by simp)
  · split at h
    · exact absurd h (by simp)
    · rw [← Option.some.inj h]
      omega

theorem erase_some (s : List Char) (p n : Nat) (hp : p ≤ s.length) :
    ∃ s1, erase s p n = some s1 ∧ s1.length = s.length - min n (s.length - p) := by
  refine ⟨s.take p ++ s.drop (p + n), ?_, ?_⟩
  · unfold erase
    rw [if_neg (by omega)]
  · simp only [List.length_append, List.length_take, List.length_drop]
    omega

theorem insert_fill_some (s : List Char) (p n : Nat) (c : Char) (hp : p ≤ s.length) :
    ∃ s1, insert_fill s p n c = some s1 ∧ s1.length = s.length + n := by
  refine ⟨s.take p ++ List.replicate n c ++ s.drop p, ?_, ?_⟩
  · unfold insert_fill
    rw [if_neg (by omega)]
  · simp only [List.length_append, List.length_take, List.length_replicate, List.length_drop]
    omega

theorem digits_start_eq (src : List Char) (tmp : Nat) :
    (if decide (src[tmp + 1]? = some '.') = true then tmp + 1 + 1 else tmp + 1)
      = digits_start src tmp := by
  unfold digits_start
  by_cases h : src[tmp + 1]? = some '.' <;> simp [h]

/-- One turn of the loop of `padding()` at a directive with a positive width:
either the scan ends, or it goes on with a buffer that grew by less than
`2 ^ 31` characters, at a position that leaves fewer characters to scan. -/
theorem padding_loop_resolve (c : Char) (fuel : Nat) (src : List Char) (poss : List padd_vec)
    (pos tmp padd : Nat) (hpos : pos < src.length) (hfc : find_char src '%' pos = some tmp)
    (hl : tmp + 1 < src.length) (hsrc : src.length + 2 ^ 33 < SIZE_T)
    (hst : stoi (substr src (digits_start src tmp)
            ((skip_digits src (digits_start src tmp) - digits_start src tmp) % UINT8))
          = some padd)
    (hp0 : padd ≠ 0) :
    (∃ r, padding_loop c (fuel + 1) src poss pos = Outcome.done r) ∨
    ∃ src2 poss2 pos2, padding_loop c (fuel + 1) src poss pos = padding_loop c fuel src2 poss2 pos2 ∧
      src2.length + 2 ≤ src.length + 2 ^ 31 ∧
      src2.length - pos2 + 2 ≤ src.length - pos := by
  obtain ⟨h1, h2, h3⟩ := find_char_some src '%' pos tmp hfc
  have hl2 : ¬ tmp + 1 ≥ src.length := by omega
  have hle : digits_start src tmp ≤ src.length := by
    unfold digits_start; split <;> omega
  have hge : tmp + 1 ≤ digits_start src tmp := by
    unfold digits_start; split <;> omega
  have hge2 : digits_start src tmp ≤ tmp + 2 := by
    unfold digits_start; split <;> omega
  have h4 := skip_digits_le src _ hle
  have h5 := le_skip_digits src (digits_start src tmp)
  have hpadd := stoi_le _ _ hst
  unfold INT_MAX at hpadd
  have hdig : (skip_digits src (digits_start src tmp) - digits_start src tmp) % UINT8
      ≤ skip_digits src (digits_start src tmp) - digits_start src tmp := Nat.mod_le _ _
  have hdig2 : (skip_digits src (digits_start src tmp) - digits_start src tmp) % UINT8 < 256 :=
    Nat.mod_lt _ (by decide)
  by_cases hsm : src[tmp + 1]? = some '.'
  · have hds : digits_start src tmp = tmp + 1 + 1 := by
      unfold digits_start; rw [if_pos hsm]
    simp only [hds] at hst h4 h5 hdig hdig2
    cases hfs : find_str src ['.', '%'] (skip_digits src (tmp + 1 + 1)) with
    | none =>
      left
      refine ⟨([], poss), ?_⟩
      rw [padding_loop]
      simp only [hpos, not_true, if_false, hfc, hl2, hsm, decide_True, if_true, hst, hp0, hfs]
    | some e =>
      right
      obtain ⟨f1, f2, _⟩ := find_str_some src _ _ e hfs
      simp only [List.length_cons, List.length_nil] at f2
      obtain ⟨src1, e1, e2⟩ := erase_some src e 2 (by omega)
      obtain ⟨src2, e3, e4⟩ := erase_some src1 tmp
        ((skip_digits src (tmp + 1 + 1) - (tmp + 1 + 1)) % UINT8 + 2)
        (by omega)
      refine ⟨src2, poss ++ [⟨tmp, (e + SIZE_T - 4) % SIZE_T, padd⟩],
        (skip_digits src (tmp + 1 + 1) + 1) % SIZE_T, ?_, ?_, ?_⟩
      · rw [padding_loop]
        simp only [hpos, not_true, if_false, hfc, hl2, hsm, decide_True, if_true, hst, hp0,
          hfs, e1, e3]
      · omega
      · have e5 : (skip_digits src (tmp + 1 + 1) + 1) % SIZE_T
            = skip_digits src (tmp + 1 + 1) + 1 :=
          Nat.mod_eq_of_lt (by omega)
        rw [e5]
        omega
  · have hds : digits_start src tmp = tmp + 1 := by unfold digits_start; rw [if_neg hsm]
    simp only [hds] at hst h4 h5 hdig hdig2
    right
    obtain ⟨src1, e1, e2⟩ := erase_some src tmp
      ((skip_digits src (tmp + 1) - (tmp + 1)) % UINT8 + 1) (by omega)
    obtain ⟨src2, e3, e4⟩ := insert_fill_some src1 tmp padd c (by omega)
    refine ⟨src2, poss,
      ((skip_digits src (tmp + 1)
        + (padd + UINT32 - ((skip_digits src (tmp + 1) - (tmp + 1)) % UINT8 + 1)) % UINT32)
          % SIZE_T + 1) % SIZE_T, ?_, ?_, ?_⟩
    · rw [padding_loop]
      simp only [hpos, not_true, if_false, hfc, hl2, hsm, decide_False, if_false, hst, hp0,
        e1, e3, Bool.false_eq_true]
    · omega
    · simp only [UINT8, UINT32, SIZE_T] at *
      omega

theorem padding_loop_total (c : Char) :
    ∀ (fuel : Nat) (src : List Char) (poss : List padd_vec) (pos : Nat),
      src.length - pos + 1 ≤ fuel →
      src.length + 2 ^ 30 * (src.length - pos) ≤ 2 ^ 63 →
      ∃ r, padding_loop c fuel src poss pos = Outcome.done r := by
  intro fuel
  induction fuel with
  | zero => intro src poss pos h _; omega
  | succ fuel ih =>
    intro src poss pos hf hb
    by_cases hpos : pos < src.length
    · cases hfc : find_char src '%' pos with
      | none =>
        refine ⟨(src, poss), ?_⟩
        rw [padding_loop]
        simp only [hpos, not_true, if_false, hfc]
      | some tmp =>
        obtain ⟨h1, h2, h3⟩ := find_char_some src '%' pos tmp hfc
        by_cases hl : tmp + 1 < src.length
        · have hle : digits_start src tmp ≤ src.length := by
            unfold digits_start; split <;> omega
          have hge : tmp + 1 ≤ digits_start src tmp := by
            unfold digits_start; split <;> omega
          have h4 := skip_digits_le src _ hle
          have h5 := le_skip_digits src (digits_start src tmp)
          have hskip : ∀ (_ : stoi (substr src (digits_start src tmp)
                ((skip_digits src (digits_start src tmp) - digits_start src tmp) % UINT8)) = none ∨
              stoi (substr src (digits_start src tmp)
                ((skip_digits src (digits_start src tmp) - digits_start src tmp) % UINT8))
                = some 0),
              ∃ r, padding_loop c (fuel + 1) src poss pos = Outcome.done r := by
            intro hs
            rw [padding_loop_skip c fuel src poss pos tmp hpos hfc hl hs]
            have e : (skip_digits src (digits_start src tmp) + 1) % SIZE_T
                = skip_digits src (digits_start src tmp) + 1 :=
              Nat.mod_eq_of_lt (by unfold SIZE_T; omega)
            rw [e]
            exact ih src poss _ (by omega) (by omega)
          cases hst : stoi (substr src (digits_start src tmp)
              ((skip_digits src (digits_start src tmp) - digits_start src tmp) % UINT8)) with
          | none => exact hskip (Or.inl hst)
          | some padd =>
            by_cases hp0 : padd = 0
            · exact hskip (Or.inr (by rw [hst, hp0]))
            · rcases padding_loop_resolve c fuel src poss pos tmp padd hpos hfc hl
                (by unfold SIZE_T; omega) hst hp0 with hdone | ⟨src2, poss2, pos2, e1, e2, e3⟩
              · exact hdone
              · rw [e1]
                exact ih src2 poss2 pos2 (by omega) (by omega)
        · refine ⟨(src, poss), ?_⟩
          rw [padding_loop]
          have hl2 : tmp + 1 ≥ src.length := by omega
          simp only [hpos, not_true, if_false, hfc, hl2, if_true]
    · refine ⟨(src, poss), ?_⟩
      rw [padding_loop]
      simp only [hpos, not_false_eq_true, if_true]

/-- On a template of fewer than `2 ^ 32` characters no fill can make the
buffer outgrow a `std::string`: `padding()` returns. -/
theorem padding_total_short (c : Char) (t : List Char) (ht : t.length < 2 ^ 32) :
    ∃ st, padding (init c t) = Outcome.done st := by
  obtain ⟨r, hr⟩ := padding_loop_total c (t.length + 1) t [] 0 (by omega) (by omega)
  exact ⟨{ init c t with src := r.1, poss := r.2 }, by simp only [padding, init, hr]⟩

/-! ## The scan ends on every template -/

/-- One turn of the loop of `padding()` on a string of capacity `cap` whose
buffer is shorter than `2 ^ 63`: the turn returns (and so does the turn of
`padding_loop`), or an insertion beyond the capacity ends the function, or
both loops go on alike with a buffer shorter than `2 ^ 63` and fewer
characters left to scan. -/
theorem padding_loop_cap_step (cap : Nat → Bool) (hcap : ∀ n, cap n = true → n < 2 ^ 63)
    (c : Char) (fuel : Nat) (src : List Char) (poss : List padd_vec) (pos : Nat)
    (hsrc : src.length < 2 ^ 63) :
    (∃ r, padding_loop_cap cap c (fuel + 1) src poss pos = Outcome.done r ∧
        padding_loop c (fuel + 1) src poss pos = Outcome.done r) ∨
    padding_loop_cap cap c (fuel + 1) src poss pos = Outcome.terminated ∨
    ∃ src2 poss2 pos2,
      padding_loop_cap cap c (fuel + 1) src poss pos
        = padding_loop_cap cap c fuel src2 poss2 pos2 ∧
      padding_loop c (fuel + 1) src poss pos = padding_loop c fuel src2 poss2 pos2 ∧
      src2.length < 2 ^ 63 ∧ src2.length - pos2 + 1 ≤ src.length - pos := by
  by_cases hpos : pos < src.length
  swap
  · left
    refine ⟨(src, poss), ?_, ?_⟩
    · rw [padding_loop_cap]
      simp only [hpos, not_false_eq_true, if_true]
    · rw [padding_loop]
      simp only [hpos, not_false_eq_true, if_true]
  cases hfc : find_char src '%' pos with
  | none =>
    left
    refine ⟨(src, poss), ?_, ?_⟩
    · rw [padding_loop_cap]
      simp only [hpos, not_true, if_false, hfc]
    · rw [padding_loop]
      simp only [hpos, not_true, if_false, hfc]
  | some tmp =>
    obtain ⟨h1, h2, h3⟩ := find_char_some src '%' pos tmp hfc
    by_cases hl : tmp + 1 < src.length
    swap
    · left
      have hl2 : tmp + 1 ≥ src.length := by omega
      refine ⟨(src, poss), ?_, ?_⟩
      · rw [padding_loop_cap]
        simp only [hpos, not_true, if_false, hfc, hl2, if_true]
      · rw [padding_loop]
        simp only [hpos, not_true, if_false, hfc, hl2, if_true]
    have hl2 : ¬ tmp + 1 ≥ src.length := by omega
    by_cases hsm : src[tmp + 1]? = some '.'
    · have h4 := skip_digits_le src (tmp + 1 + 1) (by omega)
      have h5 := le_skip_digits src (tmp + 1 + 1)
      have hdig : (skip_digits src (tmp + 1 + 1) - (tmp + 1 + 1)) % UINT8
          ≤ skip_digits src (tmp + 1 + 1) - (tmp + 1 + 1) := Nat.mod_le _ _
      have e5 : (skip_digits src (tmp + 1 + 1) + 1) % SIZE_T
          = skip_digits src (tmp + 1 + 1) + 1 :=
        Nat.mod_eq_of_lt (by unfold SIZE_T; omega)
      have hskip : ∀ (_ : stoi (substr src (tmp + 1 + 1)
            ((skip_digits src (tmp + 1 + 1) - (tmp + 1 + 1)) % UINT8)) = none ∨
          stoi (substr src (tmp + 1 + 1)
            ((skip_digits src (tmp + 1 + 1) - (tmp + 1 + 1)) % UINT8)) = some 0),
          ∃ src2 poss2 pos2,
            padding_loop_cap cap c (fuel + 1) src poss pos
              = padding_loop_cap cap c fuel src2 poss2 pos2 ∧
            padding_loop c (fuel + 1) src poss pos = padding_loop c fuel src2 poss2 pos2 ∧
            src2.length < 2 ^ 63 ∧ src2.length - pos2 + 1 ≤ src.length - pos := by
        intro hs
        refine ⟨src, poss, (skip_digits src (tmp + 1 + 1) + 1) % SIZE_T, ?_, ?_, hsrc, ?_⟩
        · rw [padding_loop_cap]
          rcases hs with hs | hs <;>
            simp only [hpos, not_true, if_false, hfc, hl2, hsm, decide_True, if_true, hs]
        · rw [padding_loop]
          rcases hs with hs | hs <;>
            simp only [hpos, not_true, if_false, hfc, hl2, hsm, decide_True, if_true, hs]
        · rw [e5]
          omega
      cases hst : stoi (substr src (tmp + 1 + 1)
          ((skip_digits src (tmp + 1 + 1) - (tmp + 1 + 1)) % UINT8)) with
      | none => exact Or.inr (Or.inr (hskip (Or.inl hst)))
      | some padd =>
        by_cases hp0 : padd = 0
        · exact Or.inr (Or.inr (hskip (Or.inr (by rw [hst, hp0]))))
        · cases hfs : find_str src ['.', '%'] (skip_digits src (tmp + 1 + 1)) with
          | none =>
            left
            refine ⟨([], poss), ?_, ?_⟩
            · rw [padding_loop_cap]
              simp only [hpos, not_true, if_false, hfc, hl2, hsm, decide_True, if_true, hst,
                hp0, hfs]
            · rw [padding_loop]
              simp only [hpos, not_true, if_false, hfc, hl2, hsm, decide_True, if_true, hst,
                hp0, hfs]
          | some e =>
            right
            right
            obtain ⟨f1, f2, _⟩ := find_str_some src _ _ e hfs
            simp only [List.length_cons, List.length_nil] at f2
            obtain ⟨src1, e1, e2⟩ := erase_some src e 2 (by omega)
            obtain ⟨src2, e3, e4⟩ := erase_some src1 tmp
              ((skip_digits src (tmp + 1 + 1) - (tmp + 1 + 1)) % UINT8 + 2) (by omega)
            refine ⟨src2, poss ++ [⟨tmp, (e + SIZE_T - 4) % SIZE_T, padd⟩],
              (skip_digits src (tmp + 1 + 1) + 1) % SIZE_T, ?_, ?_, ?_, ?_⟩
            · rw [padding_loop_cap]
              simp only [hpos, not_true, if_false, hfc, hl2, hsm, decide_True, if_true, hst,
                hp0, hfs, e1, e3]
            · rw [padding_loop]
              simp only [hpos, not_true, if_false, hfc, hl2, hsm, decide_True, if_true, hst,
                hp0, hfs, e1, e3]
            · omega
            · rw [e5]
              omega
    · have h4 := skip_digits_le src (tmp + 1) (by omega)
      have h5 := le_skip_digits src (tmp + 1)
      have hdig : (skip_digits src (tmp + 1) - (tmp + 1)) % UINT8
          ≤ skip_digits src (tmp + 1) - (tmp + 1) := Nat.mod_le _ _
      have hdig2 : (skip_digits src (tmp + 1) - (tmp + 1)) % UINT8 < 256 :=
        Nat.mod_lt _ (by decide)
      have e5 : (skip_digits src (tmp + 1) + 1) % SIZE_T = skip_digits src (tmp + 1) + 1 :=
        Nat.mod_eq_of_lt (by unfold SIZE_T; omega)
      have hskip : ∀ (_ : stoi (substr src (tmp + 1)
            ((skip_digits src (tmp + 1) - (tmp + 1)) % UINT8)) = none ∨
          stoi (substr src (tmp + 1)
            ((skip_digits src (tmp + 1) - (tmp + 1)) % UINT8)) = some 0),
          ∃ src2 poss2 pos2,
            padding_loop_cap cap c (fuel + 1) src poss pos
              = padding_loop_cap cap c fuel src2 poss2 pos2 ∧
            padding_loop c (fuel + 1) src poss pos = padding_loop c fuel src2 poss2 pos2 ∧
            src2.length < 2 ^ 63 ∧ src2.length - pos2 + 1 ≤ src.length - pos := by
        intro hs
        refine ⟨src, poss, (skip_digits src (tmp + 1) + 1) % SIZE_T, ?_, ?_, hsrc, ?_⟩
        · rw [padding_loop_cap]
          rcases hs with hs | hs <;>
            simp only [hpos, not_true, if_false, hfc, hl2, hsm, decide_False, if_false, hs,
              if_true, Bool.false_eq_true]
        · rw [padding_loop]
          rcases hs with hs | hs <;>
            simp only [hpos, not_true, if_false, hfc, hl2, hsm, decide_False, if_false, hs,
              if_true, Bool.false_eq_true]
        · rw [e5]
          omega
      cases hst : stoi (substr src (tmp + 1)
          ((skip_digits src (tmp + 1) - (tmp + 1)) % UINT8)) with
      | none => exact Or.inr (Or.inr (hskip (Or.inl hst)))
      | some padd =>
        by_cases hp0 : padd = 0
        · exact Or.inr (Or.inr (hskip (Or.inr (by rw [hst, hp0]))))
        · have hpadd := stoi_le _ _ hst
          unfold INT_MAX at hpadd
          obtain ⟨src1, e1, e2⟩ := erase_some src tmp
            ((skip_digits src (tmp + 1) - (tmp + 1)) % UINT8 + 1) (by omega)
          by_cases hc : cap (src1.length + padd) = true
          · right
            right
            obtain ⟨src2, e3, e4⟩ := insert_fill_some src1 tmp padd c (by omega)
            have e3c : insert_fill_cap cap src1 tmp padd c = some src2 := by
              unfold insert_fill_cap
              rw [if_pos hc, e3]
            have hcl := hcap _ hc
            refine ⟨src2, poss,
              ((skip_digits src (tmp + 1)
                + (padd + UINT32 - ((skip_digits src (tmp + 1) - (tmp + 1)) % UINT8 + 1))
                    % UINT32) % SIZE_T + 1) % SIZE_T, ?_, ?_, ?_, ?_⟩
            · rw [padding_loop_cap]
              simp only [hpos, not_true, if_false, hfc, hl2, hsm, decide_False, hst, hp0,
                e1, e3c, Bool.false_eq_true]
            · rw [padding_loop]
              simp only [hpos, not_true, if_false, hfc, hl2, hsm, decide_False, hst, hp0,
                e1, e3, Bool.false_eq_true]
            · omega
            · simp only [UINT8, UINT32, SIZE_T] at *
              omega
          · right
            left
            have e3c : insert_fill_cap cap src1 tmp padd c = none := by
              unfold insert_fill_cap
              rw [if_neg hc]
            rw [padding_loop_cap]
            simp only [hpos, not_true, if_false, hfc, hl2, hsm, decide_False, hst, hp0,
              e1, e3c, Bool.false_eq_true]

/-- The loop of `padding()` on a string of capacity `cap`, entered with enough
fuel for the characters left to scan: it returns, and `padding_loop` returns
the same, or it is ended by an insertion beyond the capacity. -/
theorem padding_loop_cap_run (cap : Nat → Bool) (hcap : ∀ n, cap n = true → n < 2 ^ 63)
    (c : Char) :
    ∀ (fuel : Nat) (src : List Char) (poss : List padd_vec) (pos : Nat),
      src.length - pos + 1 ≤ fuel → src.length < 2 ^ 63 →
      (∃ r, padding_loop_cap cap c fuel src poss pos = Outcome.done r ∧
          padding_loop c fuel src poss pos = Outcome.done r) ∨
      padding_loop_cap cap c fuel src poss pos = Outcome.terminated := by
  intro fuel
  induction fuel with
  | zero => intro src poss pos h _; omega
  | succ fuel ih =>
    intro src poss pos hf hsrc
    rcases padding_loop_cap_step cap hcap c fuel src poss pos hsrc with
      hd | ht | ⟨src2, poss2, pos2, e1, e2, e3, e4⟩
    · exact Or.inl hd
    · exact Or.inr ht
    · rw [e1, e2]
      exact ih src2 poss2 pos2 (by omega) e3

/-- C17: the directive scan ends on every template, for every pad character:
on a string of any capacity `cap` below `2 ^ 63` characters (`max_size()`, and
what the allocator grants) the loop of `padding()` takes at most
`length + 1` turns, although normal directives lengthen the buffer while it
is scanned; it returns a state, the one `padding` computes, or it is ended by
an insertion beyond the capacity. -/
theorem C17_scan_ends (cap : Nat → Bool) (hcap : ∀ n, cap n = true → n < 2 ^ 63)
    (c : Char) (t : List Char) (ht : representable t) :
    (∃ st, padding_cap cap (init c t) = Outcome.done st ∧
        padding (init c t) = Outcome.done st) ∨
    padding_cap cap (init c t) = Outcome.terminated := by
  rcases padding_loop_cap_run cap hcap c (t.length + 1) t [] 0 (by omega) ht with
    ⟨r, h1, h2⟩ | h
  · left
    exact ⟨{ init c t with src := r.1, poss := r.2 },
      by simp only [padding_cap, init, h1], by simp only [padding, init, h2]⟩
  · right
    simp only [padding_cap, init, h]

/-- Witness of C17: a template of directives with the pad character `%`, whose
fill looks like directive text, on a string that takes up to `2 ^ 63 - 1`
characters: the scan returns. -/
theorem C17_scan_ends_witness :
    ∃ st, padding_cap (fun n => decide (n < 2 ^ 63)) (init '%' "%3.5%.2a.%%12%.4".toList)
          = Outcome.done st ∧
        padding (init '%' "%3.5%.2a.%%12%.4".toList) = Outcome.done st :=
  (C17_scan_ends (fun n => decide (n < 2 ^ 63)) (fun _ h => of_decide_eq_true h) '%'
    "%3.5%.2a.%%12%.4".toList (by decide)).resolve_right (by decide)

/-- On a string that takes at most 7 characters the fill of `%9` does not
fit: the insertion throws and ends `padding()`. -/
theorem padding_cap_full :
    padding_cap (fun n => decide (n < 8)) (init '*' "%9".toList) = Outcome.terminated := by
  decide

end fstring
